import Mathlib

/-!
# gibbergen: the word dictionary and the gibberish generator

A shallow embedding of `gibbergen.c` (version 2.0.7).

Conventions of the embedding.

* A C string is the list of its bytes before the terminating NUL, every byte in `1..255`
  (`isCString`).
* A C array (the word buffer `dictwordbuf`, the offset array `dword`, the chain array `hitem`,
  the table `hchain`, the table `useagerules`, a `charchain`) is a map from index to content;
  its allocated capacity is the field the source keeps next to it (`dwordbufmax`, `maxwords`,
  `maxitems`).  A store beyond the allocated capacity is undefined behaviour in C; the
  operation then yields `none`.
* `malloc`, `calloc` and `realloc` are taken to succeed (the source does not test their
  result); fresh bytes read as `0`.
* `unsigned long` is 64 bits wide and `unsigned int` and `int` are 32 bits wide (LP64).
  Counters that the program can really overflow carry their explicit `% 2 ^ 32`; sizes and
  offsets, which are bounded by the address space, are plain naturals.
* The not-found value `-1` of `dictentry` is `none`; a found index is `some i`.
-/

namespace Gibbergen

/-! ## Constants of the source -/

def RNDSEED : Nat := 17
def RNDINC : Nat := 1
def RNDMUL : Nat := 2005
def RNDMOD : Nat := 32768

def INITRCHAIN : Nat := 1024
def GROWRCHAIN : Nat := 1024

def DHASHRINC : Nat := 1
def DHASHRMUL : Nat := 857
def DHASHSIZE : Nat := 2048

def INITDCHAIN : Nat := 48
def GROWDCHAIN : Nat := 16

def INITDWORDS : Nat := 24576
def GROWDWORDS : Nat := 8192

def INITDWORDBUF : Nat := 196608
def GROWDWORDBUF : Nat := 65536

def DEFAULT_SRCWORDLEN : Nat := 5
def DEFAULT_GIBBERCOUNT : Nat := 8192
def DEFAULT_GIBBERMINLEN : Nat := 6
def DEFAULT_GIBBERMAXLEN : Nat := 8

/-- The number of bytes of `stringbuf` (`static char stringbuf[1025]`). -/
def STRINGBUFSIZE : Nat := 1025

/-! ## C strings and characters -/

/-- A C string: the bytes before the terminator, none of them NUL. -/
def isCString (w : List Nat) : Prop := ∀ c ∈ w, 1 ≤ c ∧ c ≤ 255

instance (w : List Nat) : Decidable (isCString w) := by
  unfold isCString; infer_instance

/-- The value of a byte of a `char *` string once promoted to `unsigned long`, as in
`... + *s++` of `dhashcode`: `char` is signed, so a byte above 127 is sign-extended. -/
def charToULong (c : Nat) : Nat := if c < 128 then c else c + (2 ^ 64 - 256)

/-- The conversion of an `int` to `size_t` / `unsigned long` that C performs when an `int`
is compared with a `size_t`: the value modulo `2 ^ 64`. -/
def toSizeT (i : Int) : Nat := (i % (2 ^ 64 : Int)).toNat

/-- The `isalpha` of the "C" locale (the program never calls `setlocale`). -/
def isalpha (c : Nat) : Bool := (65 ≤ c && c ≤ 90) || (97 ≤ c && c ≤ 122)

/-! ## The dictionary -/

/-- The struct `dictwords`: the word buffer and the array of offsets into it. -/
structure dictwords where
  dwordbufpos : Nat
  dwordbufmax : Nat
  dictwordbuf : Nat → Nat
  nwords : Nat
  maxwords : Nat
  dword : Nat → Nat

/-- The struct `dicthashchain`: `hitem i` is the field `hitem[i].hnum`. -/
structure dicthashchain where
  nitems : Nat
  maxitems : Nat
  hitem : Nat → Nat

/-- The struct `dictionary`; a `NULL` pointer is `none`. -/
structure dictionary where
  words : Option dictwords
  hchain : Nat → Option dicthashchain

/-- A dictionary as `calloc` returns it in `main`: every pointer `NULL`. -/
def emptydict : dictionary := { words := none, hchain := fun _ => none }

/-- One round of the loop of `dhashcode`. -/
def dhashstep (h c : Nat) : Nat :=
  ((h + DHASHRINC) * DHASHRMUL + charToULong c) % 2 ^ 64 % DHASHSIZE

/-- The function `dhashcode`: the hash code of a string. -/
def dhashcode (s : List Nat) : Nat := s.foldl dhashstep 0

/-- The test `strcmp(&buf[off], w) == 0`. -/
def strcmpEq (buf : Nat → Nat) : Nat → List Nat → Bool
  | off, [] => buf off == 0
  | off, c :: cs => buf off == c && strcmpEq buf (off + 1) cs

/-- The `for` loop of `dictentry`, with `n` items left to visit from index `i` on. -/
def chainscan (words : dictwords) (hchain : dicthashchain) (w : List Nat) :
    Nat → Nat → Option Nat
  | 0, _ => none
  | n + 1, i =>
    if strcmpEq words.dictwordbuf (words.dword (hchain.hitem i)) w then some (hchain.hitem i)
    else chainscan words hchain w n (i + 1)

/-- The function `dictentry`: the position of a word in a dictionary, `none` for `-1`.
The source reads `dict->words` only inside the loop; a dictionary with a chain but no
words does not arise (`DictRep`), and is answered `none` here. -/
def dictentry (dict : dictionary) (w : List Nat) : Option Nat :=
  match dict.hchain (dhashcode w) with
  | none => none
  | some hchain =>
    match dict.words with
    | none => none
    | some words => chainscan words hchain w hchain.nitems 0

/-- The store `a[i] = v` into an array. -/
def store {α : Type} (a : Nat → α) (i : Nat) (v : α) : Nat → α :=
  fun j => if j = i then v else a j

/-- The call `strcpy(&buf[pos], w)`: the bytes of `w` and the terminator. -/
def strcpy (buf : Nat → Nat) : Nat → List Nat → Nat → Nat
  | pos, [] => store buf pos 0
  | pos, c :: cs => strcpy (store buf pos c) (pos + 1) cs

/-- The `dictwords` that `addtodict` allocates for a dictionary without words
(`calloc` of the struct, `malloc` of `INITDWORDBUF` bytes for the buffer). -/
def newwords : dictwords :=
  { dwordbufpos := 0, dwordbufmax := INITDWORDBUF, dictwordbuf := fun _ => 0,
    nwords := 0, maxwords := INITDWORDS, dword := fun _ => 0 }

/-- The hash chain that `addtodict` allocates for a hash code without chain. -/
def newchain : dicthashchain :=
  { nitems := 0, maxitems := INITDCHAIN, hitem := fun _ => 0 }

/-- The pointer `dict->words` as `addtodict` finds or allocates it. -/
def wordsof (d : dictionary) : dictwords :=
  match d.words with
  | some words => words
  | none => newwords

/-- The second part of `addtodict` (from the comment "make sure word isn't a duplicate"
on): the duplicate test and the insertion, for the dictionary with words `words` and
chain table `table`, `hchain` being the chain of the hash code of `w`.  The result is
`none` when a store would fall outside the allocated array. -/
def addentry (words : dictwords) (table : Nat → Option dicthashchain)
    (hchain : dicthashchain) (w : List Nat) : Option dictionary :=
  match dictentry { words := some words, hchain := table } w with
  | some _ => some { words := some words, hchain := table }
  | none =>
    let maxitems := if hchain.nitems ≥ hchain.maxitems then hchain.maxitems + GROWDCHAIN
      else hchain.maxitems
    let maxwords := if words.nwords ≥ words.maxwords then words.maxwords + GROWDWORDS
      else words.maxwords
    let dwordbufmax :=
      if words.dwordbufpos + w.length + 2 ≥ words.dwordbufmax then
        words.dwordbufmax + GROWDWORDBUF
      else words.dwordbufmax
    if hchain.nitems ≥ maxitems then none else
    if words.nwords ≥ maxwords then none else
    if words.dwordbufpos + w.length + 1 > dwordbufmax then none else
    some
      { words := some
          { dwordbufpos := (words.dwordbufpos + (w.length + 1) + 1)
              - (words.dwordbufpos + (w.length + 1) + 1) % 2,
            dwordbufmax := dwordbufmax,
            dictwordbuf := strcpy words.dictwordbuf words.dwordbufpos w,
            nwords := words.nwords + 1,
            maxwords := maxwords,
            dword := store words.dword words.nwords words.dwordbufpos },
        hchain := store table (dhashcode w)
          (some { nitems := hchain.nitems + 1, maxitems := maxitems,
                  hitem := store hchain.hitem hchain.nitems words.nwords }) }

/-- The function `addtodict`: add a word to a dictionary.  The first part allocates what
is missing, the second part is `addentry`.

`dict->words` and its `dictwordbuf` are allocated together: the second test of the source
(`words->dictwordbuf == NULL`) succeeds exactly when the first one did, as nothing else
sets or clears the buffer. -/
def addtodict (dict : dictionary) (w : List Nat) : Option dictionary :=
  let words : dictwords := wordsof dict
  let h := dhashcode w
  match dict.hchain h with
  | some hchain => addentry words dict.hchain hchain w
  | none => addentry words (store dict.hchain h (some newchain)) newchain w

/-- A sequence of `addtodict` calls, as `loaddictionary` and `makeusagerules` make them. -/
def addwords : dictionary → List (List Nat) → Option dictionary
  | d, [] => some d
  | d, w :: ws =>
    match addtodict d w with
    | none => none
    | some d1 => addwords d1 ws

/-- The bytes of the string that starts at `off`, reading at most `n` bytes: what
`fprintf(fp, "%s\n", &buf[off])` writes. -/
def cstring (buf : Nat → Nat) : Nat → Nat → List Nat
  | 0, _ => []
  | n + 1, off => if buf off = 0 then [] else buf off :: cstring buf n (off + 1)

/-- The word of entry `i`: `&words->dictwordbuf[words->dword[i]]`. -/
def dictwordat (words : dictwords) (i : Nat) : List Nat :=
  cstring words.dictwordbuf (words.dwordbufmax - words.dword i) (words.dword i)

/-- The value of `dict->words->nwords`, `0` for a dictionary without words. -/
def nwords (dict : dictionary) : Nat :=
  match dict.words with
  | none => 0
  | some words => words.nwords

/-- The words of a dictionary by entry index `0 .. nwords - 1`: the lines that
`savedictionary` and `printdictionary` write. -/
def dictlist (dict : dictionary) : List (List Nat) :=
  match dict.words with
  | none => []
  | some words => (List.range words.nwords).map (dictwordat words)

/-- The offset of entry `i`: `dict->words->dword[i]`. -/
def dictoffset (dict : dictionary) (i : Nat) : Nat := (wordsof dict).dword i

/-- The word of entry `i` of a dictionary. -/
def dictword (dict : dictionary) (i : Nat) : List Nat := dictwordat (wordsof dict) i

/-- The representation invariant of a dictionary with words: it holds the words `L`,
entry `i` being the `i`-th of them. -/
structure WordsRep (words : dictwords) (hchain : Nat → Option dicthashchain)
    (L : List (List Nat)) : Prop where
  nwords_eq : words.nwords = L.length
  nwords_le : words.nwords ≤ words.maxwords
  pos_le : words.dwordbufpos ≤ words.dwordbufmax
  max_even : words.dwordbufmax % 2 = 0
  pos_even : words.dwordbufpos % 2 = 0
  cstr : ∀ w ∈ L, isCString w
  nodup : L.Nodup
  stored : ∀ i w, L[i]? = some w →
    strcmpEq words.dictwordbuf (words.dword i) w = true ∧
      words.dword i + w.length + 1 ≤ words.dwordbufpos
  chain_le : ∀ h c, hchain h = some c → c.nitems ≤ c.maxitems
  chain_sound : ∀ h c, hchain h = some c → ∀ j, j < c.nitems →
    ∃ w, L[c.hitem j]? = some w ∧ dhashcode w = h
  chain_complete : ∀ i w, L[i]? = some w →
    ∃ c, hchain (dhashcode w) = some c ∧ ∃ j, j < c.nitems ∧ c.hitem j = i

/-- The representation invariant of a dictionary: `DictRep d L` says that `d` is a
well-formed dictionary that holds exactly the words `L`, in this order. -/
def DictRep (d : dictionary) (L : List (List Nat)) : Prop :=
  match d.words with
  | none => L = [] ∧ ∀ h, d.hchain h = none
  | some words => WordsRep words d.hchain L

/-- The word list after one insert: a word that is present changes nothing, a new word
goes to the end. -/
def insertword (L : List (List Nat)) (w : List Nat) : List (List Nat) :=
  if w ∈ L then L else L ++ [w]

/-- The dictionary that holds the single word "dog". -/
def dogdict : dictionary := (addwords emptydict [[100, 111, 103]]).getD emptydict

/-- The dictionary that holds "dog" and "gar", two words of hash code 1333. -/
def doggardict : dictionary := (addtodict dogdict [103, 97, 114]).getD emptydict

/-- The distinct words of a sequence in order of first occurrence. -/
def firstOccurrences : List (List Nat) → List (List Nat)
  | [] => []
  | w :: ws => w :: (firstOccurrences ws).filter (fun x => x ≠ w)

/-! ## The usage rules and the generator -/

/-- The struct `useageentry`: the characters seen after one pair of characters. -/
structure useageentry where
  nchars : Nat
  maxchars : Nat
  charchain : Nat → Nat

/-- The table `useagerules` as `calloc` returns it in `main`. -/
def norules : Nat → Option useageentry := fun _ => none

/-- One round of the inner `while` of `makeusagerules`: `thischar` is appended to the
chain of the pair `(prevprev, prevchar)`.  The characters of a token are ASCII letters or
the space, for which the conversion of `*w` to `unsigned int` is the identity. -/
def usagechar (useagerules : Nat → Option useageentry) (prevprev prevchar thischar : Nat) :
    Nat → Option useageentry :=
  let charpairhash := prevprev * 256 + prevchar
  let e : useageentry := match useagerules charpairhash with
    | some e => e
    | none => { nchars := 0, maxchars := INITRCHAIN, charchain := fun _ => 0 }
  let maxchars := if e.nchars ≥ e.maxchars then e.maxchars + GROWRCHAIN else e.maxchars
  store useagerules charpairhash
    (some { nchars := e.nchars + 1, maxchars := maxchars,
            charchain := store e.charchain e.nchars (thischar % 256) })

/-- The inner `while` of `makeusagerules` over the characters that are left of the word. -/
def usagechars (useagerules : Nat → Option useageentry) :
    Nat → Nat → List Nat → Nat → Option useageentry
  | _, _, [] => useagerules
  | prevprev, prevchar, thischar :: cs =>
    usagechars (usagechar useagerules prevprev prevchar thischar) prevchar thischar cs

/-- The function `makeusagerules` on the tokens that `nextsourceword` returns: the state is
the table `useagerules` and the dictionary `languagedict`.  The space is appended to the
token in `stringbuf`, which has to hold it. -/
def makeusagerules (srcwordlen : Nat) :
    List (List Nat) → (Nat → Option useageentry) × dictionary →
    Option ((Nat → Option useageentry) × dictionary)
  | [], st => some st
  | w :: ws, (useagerules, languagedict) =>
    if w.length ≥ srcwordlen then
      match dictentry languagedict w with
      | some _ => makeusagerules srcwordlen ws (useagerules, languagedict)
      | none =>
        match addtodict languagedict w with
        | none => none
        | some languagedict1 =>
          if w.length + 2 > STRINGBUFSIZE then none
          else
            makeusagerules srcwordlen ws
              (usagechars useagerules 32 32 (w ++ [32]), languagedict1)
    else makeusagerules srcwordlen ws (useagerules, languagedict)

/-- The globals of the generator. -/
structure gibberstate where
  gibbercharcount : Nat
  gibbercharpairhash : Nat
  gibberrandnum : Nat

/-- The generator as `main` sets it up. -/
def seedstate : gibberstate :=
  { gibbercharcount := 0, gibbercharpairhash := 32 * 256 + 32, gibberrandnum := RNDSEED }

/-- The index into `charchain` that `nextgibberchar` computes from `gibberrandnum` and the
chain length `n`.  For `gibberrandnum < RNDMOD` and `n < 2 ^ 64` no product leaves the
range of `unsigned long`. -/
def chainindex (gibberrandnum n : Nat) : Nat :=
  let m := n / RNDMOD
  (gibberrandnum * (n - m * RNDMOD)) / RNDMOD + m * gibberrandnum

/-- The function `nextgibberchar`: the next character and the new state.
`gibbercharcount` is an `unsigned int`; on the other two globals the reduction modulo the
width of the type changes nothing, as `65536` and `RNDMOD` divide it. -/
def nextgibberchar (useagerules : Nat → Option useageentry) (s : gibberstate) :
    Nat × gibberstate :=
  let c : Nat := match useagerules s.gibbercharpairhash with
    | some e => e.charchain (chainindex s.gibberrandnum e.nchars)
    | none => 42
  (c,
    { gibbercharpairhash := (s.gibbercharpairhash * 256 + c) % 65536,
      gibberrandnum :=
        (s.gibberrandnum * RNDMUL + RNDINC + s.gibbercharcount % RNDMUL) % RNDMOD,
      gibbercharcount := (s.gibbercharcount + 1) % 2 ^ 32 })

/-- The loop `while (isalpha(*w=nextgibberchar())) w++;` of `nextgibberword` with `n`
bytes of `stringbuf` left from `w` on and the letters `acc` before `w`; `none` when the
store would fall behind the end of `stringbuf`. -/
def gibberletters (useagerules : Nat → Option useageentry) :
    Nat → gibberstate → List Nat → Option (List Nat × gibberstate)
  | 0, _, _ => none
  | n + 1, s, acc =>
    if isalpha (nextgibberchar useagerules s).1 then
      gibberletters useagerules n (nextgibberchar useagerules s).2
        (acc ++ [(nextgibberchar useagerules s).1])
    else some (acc, (nextgibberchar useagerules s).2)

/-- The function `nextgibberword`; `fuel` bounds the rounds of its `do .. while`. -/
def nextgibberword (useagerules : Nat → Option useageentry) :
    Nat → gibberstate → Option (List Nat × gibberstate)
  | 0, _ => none
  | fuel + 1, s =>
    match gibberletters useagerules STRINGBUFSIZE
        { s with gibbercharpairhash := 32 * 256 + 32 } [] with
    | none => none
    | some (w, s1) =>
      if w.length = 0 then nextgibberword useagerules fuel s1 else some (w, s1)

/-- The test that ends the inner `do .. while` of `makegibberdict`: the candidate is
kept.  `gibberminlen` and `gibbermaxlen` are `int` and are compared with a `size_t`. -/
def keepcandidate (languagedict exclusiondict : dictionary) (gibberminlen gibbermaxlen : Int)
    (w : List Nat) : Bool :=
  !(decide (w.length < toSizeT gibberminlen) || decide (w.length > toSizeT gibbermaxlen)
    || (dictentry languagedict w).isSome || (dictentry exclusiondict w).isSome)

/-- The inner `do .. while` of `makegibberdict`: words are generated until one is kept;
`fuel` bounds the rounds of this loop and of the loop of `nextgibberword`. -/
def nextcandidate (useagerules : Nat → Option useageentry)
    (languagedict exclusiondict : dictionary) (gibberminlen gibbermaxlen : Int) :
    Nat → gibberstate → Option (List Nat × gibberstate)
  | 0, _ => none
  | fuel + 1, s =>
    match nextgibberword useagerules (fuel + 1) s with
    | none => none
    | some (w, s1) =>
      if keepcandidate languagedict exclusiondict gibberminlen gibbermaxlen w then
        some (w, s1)
      else nextcandidate useagerules languagedict exclusiondict gibberminlen gibbermaxlen
        fuel s1

/-- The function `makegibberdict`; the state is the dictionary `gibberdict` and the
globals of the generator, `fuel` bounds the rounds of every loop.  `gibberlimit` is an
`int` and is compared with the `unsigned long` `nwords`. -/
def makegibberdict (useagerules : Nat → Option useageentry)
    (languagedict exclusiondict : dictionary) (gibberlimit gibberminlen gibbermaxlen : Int) :
    Nat → dictionary → gibberstate → Option (dictionary × gibberstate)
  | 0, _, _ => none
  | fuel + 1, gibberdict, s =>
    match nextcandidate useagerules languagedict exclusiondict gibberminlen gibbermaxlen
        (fuel + 1) s with
    | none => none
    | some (w, s1) =>
      match addtodict gibberdict w with
      | none => none
      | some gibberdict1 =>
        if nwords gibberdict1 < toSizeT gibberlimit then
          makegibberdict useagerules languagedict exclusiondict gibberlimit gibberminlen
            gibbermaxlen fuel gibberdict1 s1
        else some (gibberdict1, s1)

/-- The range of the C type `int`. -/
def isInt (i : Int) : Prop := -2 ^ 31 ≤ i ∧ i < 2 ^ 31

instance (i : Int) : Decidable (isInt i) := by
  unfold isInt; infer_instance

/-- The words that a run added to a dictionary that held `n` words before. -/
def addedwords (n : Nat) (dict : dictionary) : List (List Nat) := (dictlist dict).drop n

/-- The state after `makeusagerules` has read the one-word text "aaaaa". -/
def aaaaatrained : (Nat → Option useageentry) × dictionary :=
  (makeusagerules DEFAULT_SRCWORDLEN [[97, 97, 97, 97, 97]] (norules, emptydict)).getD
    (norules, emptydict)

/-- A first run `makegibberdict(1, 1, 8)` after the training on "aaaaa". -/
def firstrun : dictionary × gibberstate :=
  (makegibberdict aaaaatrained.1 aaaaatrained.2 emptydict 1 1 8 3 emptydict seedstate).getD
    (emptydict, seedstate)

/-- A second run `makegibberdict(1, 1, 8)`, on the state that the first run left. -/
def secondrun : dictionary × gibberstate :=
  (makegibberdict aaaaatrained.1 aaaaatrained.2 emptydict 1 1 8 3 firstrun.1 firstrun.2).getD
    (emptydict, seedstate)

/-- A run `makegibberdict(3, 2, 6)` after the training on "aaaaa". -/
def boundedrun : dictionary × gibberstate :=
  (makegibberdict aaaaatrained.1 aaaaatrained.2 emptydict 3 2 6 4 emptydict seedstate).getD
    (emptydict, seedstate)

/-- A run `makegibberdict(1, 1, -1)` after the training on "aaaaa". -/
def unboundedrun : dictionary × gibberstate :=
  (makegibberdict aaaaatrained.1 aaaaatrained.2 emptydict 1 1 (-1) 3 emptydict seedstate).getD
    (emptydict, seedstate)

/-- One step of the generator stream as the specification states it, on the pair
`(r, k)`, the counter `k` being a 32-bit unsigned integer. -/
def rndstep (p : Nat × Nat) : Nat × Nat :=
  ((p.1 * 2005 + 1 + p.2 % 2005) % 32768, (p.2 + 1) % 2 ^ 32)

/-- The pair `(r, k)` after `j` steps from the seed `r = 17`, `k = 0`. -/
def rndstream : Nat → Nat × Nat
  | 0 => (17, 0)
  | j + 1 => rndstep (rndstream j)

/-- A sequence of `nextgibberchar` calls, each with its own usage rules and its own
window key `gibbercharpairhash`. -/
def draws : List ((Nat → Option useageentry) × Nat) → gibberstate → gibberstate
  | [], s => s
  | (useagerules, h) :: l, s =>
    draws l (nextgibberchar useagerules { s with gibbercharpairhash := h }).2

/-! ## The tokenizer -/

/-- The table `isotoalpha1`: the first letter for the bytes `192 .. 255`. -/
def isotoalpha1 : List Nat :=
  [65, 65, 65, 65, 65, 65, 65, 67, 69, 69, 69, 69, 73, 73, 73, 73,
   68, 78, 79, 79, 79, 79, 79, 88, 79, 85, 85, 85, 85, 89, 80, 83,
   97, 97, 97, 97, 97, 97, 97, 99, 101, 101, 101, 101, 105, 105, 105, 105,
   100, 110, 111, 111, 111, 111, 111, 120, 111, 117, 117, 117, 117, 121, 112, 121]

/-- The table `isotoalpha2`: the second letter for the bytes `192 .. 255`, `0` for none. -/
def isotoalpha2 : List Nat :=
  [0, 0, 0, 0, 0, 0, 69, 0, 0, 0, 0, 0, 0, 0, 0, 0,
   0, 0, 0, 0, 0, 0, 0, 0, 0, 0, 0, 0, 0, 0, 0, 83,
   0, 0, 0, 0, 0, 0, 101, 0, 0, 0, 0, 0, 0, 0, 0, 0,
   0, 0, 0, 0, 0, 0, 0, 0, 0, 0, 0, 0, 0, 0, 0, 0]

/-- The `tolower` of the "C" locale. -/
def tolower (c : Nat) : Nat := if 65 ≤ c ∧ c ≤ 90 then c + 32 else c

/-- The bytes that one round of the inner loop of `nextsourceword` stores for the byte
`thischar` that `fgetc` returned: `tolower(c1)`, and `tolower(c2)` when `c2 != 0`. -/
def foldbyte (thischar : Nat) : List Nat :=
  let c1 := if thischar > 191 then isotoalpha1.getD (thischar - 192) 0 else thischar
  let c2 := if thischar > 191 then isotoalpha2.getD (thischar - 192) 0 else 0
  if c2 ≠ 0 then [tolower c1, tolower c2] else [tolower c1]

/-- The string that starts a list of bytes: the bytes before the first NUL. -/
def cstringof (buf : List Nat) : List Nat := buf.takeWhile (fun c => c ≠ 0)

/-- The function `nextsourceword` on the bytes that are left of the file; `buf` holds the
bytes of `stringbuf` before `w`.  The result is the returned word (`none` for `NULL`) and
the rest of the file; it is `none` when a store falls behind the end of `stringbuf`.
At the end of the file the source stores nothing, clears `*(w-1)` and returns `NULL`;
when `w` is still `stringbuf` the cleared byte lies before the buffer and is not part of
this state. -/
def nextsourceword : List Nat → List Nat → Option (Option (List Nat) × List Nat)
  | [], _ => some (none, [])
  | thischar :: rest, buf =>
    if (buf ++ foldbyte thischar).length > STRINGBUFSIZE then none
    else if isalpha ((buf ++ foldbyte thischar).getLastD 0) then
      nextsourceword rest (buf ++ foldbyte thischar)
    else if (cstringof (buf ++ foldbyte thischar).dropLast).length = 0 then
      nextsourceword rest []
    else some (some (cstringof (buf ++ foldbyte thischar).dropLast), rest)

/-- The words that the loop `while ((w = nextsourceword(fp)) != NULL)` of
`makeusagerules` and `loaddictionary` receives; `fuel` bounds the rounds of the loop. -/
def sourcewords : Nat → List Nat → Option (List (List Nat))
  | 0, _ => none
  | fuel + 1, stream =>
    match nextsourceword stream [] with
    | none => none
    | some (none, _) => some []
    | some (some w, rest) => (sourcewords fuel rest).map (fun ws => w :: ws)

/-- The text "cat dog dog bird", without a line end. -/
def catdogtext : List Nat :=
  [99, 97, 116, 32, 100, 111, 103, 32, 100, 111, 103, 32, 98, 105, 114, 100]

/-- A lower-case letter `a .. z`. -/
def islowercase (c : Nat) : Prop := 97 ≤ c ∧ c ≤ 122

instance (c : Nat) : Decidable (islowercase c) := by
  unfold islowercase; infer_instance

/-! ## Buckets of the usage rules -/

/-- The characters of the chain of one pair of characters, in the order in which they
were appended: `charchain[0 .. nchars - 1]`, nothing when the chain does not exist. -/
def bucket (useagerules : Nat → Option useageentry) (key : Nat) : List Nat :=
  match useagerules key with
  | none => []
  | some e => (List.range e.nchars).map e.charchain

/-- The word with its two leading spaces and its trailing space. -/
def padded (w : List Nat) : List Nat := [32, 32] ++ w ++ [32]

/-- The appends that the specification asks for a word `w` of length `L`: for
`i = 0 .. L`, in this order, the character `p[i+2]` goes to the bucket of the pair
`(p[i], p[i+1])`, whose key is `p[i] * 256 + p[i+1]`; `p` is the padded word. -/
def appends (w : List Nat) : List (Nat × Nat) :=
  (List.range (w.length + 1)).map (fun i =>
    ((padded w).getD i 0 * 256 + (padded w).getD (i + 1) 0, (padded w).getD (i + 2) 0))

/-- The characters that a list of appends adds to the bucket `key`, in order. -/
def appendedto (key : Nat) (l : List (Nat × Nat)) : List Nat :=
  (l.filter (fun p => decide (p.1 = key))).map (fun p => p.2)

/-- The appends of the loop `usagechars`, as pairs of key and character. -/
def windows : Nat → Nat → List Nat → List (Nat × Nat)
  | _, _, [] => []
  | prevprev, prevchar, thischar :: cs =>
    (prevprev * 256 + prevchar, thischar) :: windows prevchar thischar cs

/-- The words that `makeusagerules` accepts among the tokens `ts` when the training
dictionary holds the words `L`: long enough and not seen before. -/
def acceptedwords (srcwordlen : Nat) : List (List Nat) → List (List Nat) → List (List Nat)
  | _, [] => []
  | L, w :: ws =>
    if srcwordlen ≤ w.length ∧ w ∉ L then w :: acceptedwords srcwordlen (L ++ [w]) ws
    else acceptedwords srcwordlen L ws

/-- What `makeusagerules` does with one accepted word: the `else` branch of its loop. -/
def trainword (st : (Nat → Option useageentry) × dictionary) (w : List Nat) :
    Option ((Nat → Option useageentry) × dictionary) :=
  match addtodict st.2 w with
  | none => none
  | some languagedict1 =>
    if w.length + 2 > STRINGBUFSIZE then none
    else some (usagechars st.1 32 32 (w ++ [32]), languagedict1)

/-- The `else` branch of the loop of `makeusagerules` for a list of accepted words. -/
def trainwords : List (List Nat) → (Nat → Option useageentry) × dictionary →
    Option ((Nat → Option useageentry) × dictionary)
  | [], st => some st
  | w :: ws, st =>
    match trainword st w with
    | none => none
    | some st1 => trainwords ws st1

/-- The training on the words cat, dog, dog, bird with the minimum word length 3. -/
def catdogtrained : (Nat → Option useageentry) × dictionary :=
  (makeusagerules 3 [[99, 97, 116], [100, 111, 103], [100, 111, 103], [98, 105, 114, 100]]
    (norules, emptydict)).getD (norules, emptydict)

/-! ## The length options of `main` -/

/-- The variables `gibberlimit`, `gibberminlen`, `gibbermaxlen` of `main`, all three
`unsigned long`. -/
structure gibbersettings where
  gibberlimit : Nat
  gibberminlen : Nat
  gibbermaxlen : Nat

/-- The settings of `main` before the options are read. -/
def defaultsettings : gibbersettings :=
  { gibberlimit := DEFAULT_GIBBERCOUNT, gibberminlen := DEFAULT_GIBBERMINLEN,
    gibbermaxlen := DEFAULT_GIBBERMAXLEN }

/-- The option `-n` of `main`; `arg` is the `long` that `atol` returns. -/
def optionN (arg : Int) (st : gibbersettings) : gibbersettings :=
  { st with gibberminlen := if toSizeT arg < 1 then DEFAULT_GIBBERMINLEN else toSizeT arg }

/-- The option `-m` of `main`; `arg` is the `long` that `atol` returns. -/
def optionM (arg : Int) (st : gibbersettings) : gibbersettings :=
  { st with gibbermaxlen :=
      if toSizeT arg < st.gibberminlen then DEFAULT_GIBBERMAXLEN else toSizeT arg }

/-- The conversion of an `unsigned long` argument to the `int` parameter of
`makegibberdict`: the value is kept when it fits, and is reduced modulo `2 ^ 32`
otherwise. -/
def toCInt (v : Nat) : Int :=
  if v % 2 ^ 32 < 2 ^ 31 then ((v % 2 ^ 32 : Nat) : Int) else ((v % 2 ^ 32 : Nat) : Int) - 2 ^ 32

/-! ## Paths through the usage rules -/

/-- Every chain of the table holds at least one character. -/
def rulesok (useagerules : Nat → Option useageentry) : Prop :=
  ∀ key e, useagerules key = some e → 1 ≤ e.nchars

/-- The appends of a list of accepted words, in order. -/
def allappends : List (List Nat) → List (Nat × Nat)
  | [] => []
  | w :: ws => appends w ++ allappends ws

/-- The word `w` follows the usage rules from the window key `h` on: every character is
an element of the bucket of the window before it. -/
def follows (useagerules : Nat → Option useageentry) : Nat → List Nat → Prop
  | _, [] => True
  | h, c :: cs => c ∈ bucket useagerules h ∧ follows useagerules ((h * 256 + c) % 65536) cs

/-- The first candidate that `nextgibberword` returns after the training on "aaaaa". -/
def firstcandidate : List Nat × gibberstate :=
  (nextgibberword aaaaatrained.1 1 seedstate).getD ([], seedstate)

/-- The bytes that the inner loop of `nextsourceword` stores for a run of bytes of the
file, one round of the loop for each byte. -/
def foldbytes : List Nat → List Nat
  | [] => []
  | thischar :: rest => foldbyte thischar ++ foldbytes rest

/-! ## Strings in the word buffer -/

theorem store_same {α : Type} (a : Nat → α) (i : Nat) (v : α) : store a i v i = v := by
  simp [store]

theorem store_other {α : Type} (a : Nat → α) (i j : Nat) (v : α) (h : j ≠ i) :
    store a i v j = a j := by
  simp [store, h]

theorem strcpy_outside (w : List Nat) : ∀ (buf : Nat → Nat) (pos j : Nat),
    (j < pos ∨ pos + w.length < j) → strcpy buf pos w j = buf j := by
  induction w with
  | nil =>
    intro buf pos j h
    simp only [List.length_nil, Nat.add_zero] at h
    simp only [strcpy]
    exact store_other _ _ _ _ (by omega)
  | cons c cs ih =>
    intro buf pos j h
    simp only [List.length_cons] at h
    simp only [strcpy]
    rw [ih _ _ _ (by omega)]
    exact store_other _ _ _ _ (by omega)

theorem strcmpEq_congr (w : List Nat) : ∀ (buf buf1 : Nat → Nat) (off : Nat),
    (∀ j, off ≤ j → j ≤ off + w.length → buf1 j = buf j) →
    strcmpEq buf1 off w = strcmpEq buf off w := by
  induction w with
  | nil =>
    intro buf buf1 off h
    simp only [strcmpEq]
    rw [h off (Nat.le_refl _) (by simp)]
  | cons c cs ih =>
    intro buf buf1 off h
    simp only [List.length_cons] at h
    simp only [strcmpEq]
    rw [h off (Nat.le_refl _) (by omega), ih buf buf1 (off + 1) (fun j h1 h2 => h j (by omega) (by omega))]

theorem strcmpEq_strcpy (w : List Nat) : ∀ (buf : Nat → Nat) (pos : Nat),
    strcmpEq (strcpy buf pos w) pos w = true := by
  induction w with
  | nil =>
    intro buf pos
    simp [strcmpEq, strcpy, store]
  | cons c cs ih =>
    intro buf pos
    simp only [strcmpEq, strcpy, Bool.and_eq_true, beq_iff_eq]
    refine ⟨?_, ih _ _⟩
    rw [strcpy_outside cs _ _ _ (Or.inl (Nat.lt_succ_self pos))]
    exact store_same _ _ _

theorem isCString_cons {c : Nat} {cs : List Nat} (h : isCString (c :: cs)) :
    c ≠ 0 ∧ isCString cs := by
  refine ⟨?_, fun x hx => h x (List.mem_cons_of_mem _ hx)⟩
  have := h c (List.mem_cons_self _ _)
  omega

/-- Two C strings stored at the same offset are equal. -/
theorem strcmpEq_inj (w1 : List Nat) : ∀ (w2 : List Nat) (buf : Nat → Nat) (off : Nat),
    isCString w1 → isCString w2 → strcmpEq buf off w1 = true → strcmpEq buf off w2 = true →
    w1 = w2 := by
  induction w1 with
  | nil =>
    intro w2 buf off _ h2 e1 e2
    cases w2 with
    | nil => rfl
    | cons c cs =>
      simp only [strcmpEq, Bool.and_eq_true, beq_iff_eq] at e1 e2
      exact absurd (e2.1.symm.trans e1) (isCString_cons h2).1
  | cons c cs ih =>
    intro w2 buf off h1 h2 e1 e2
    cases w2 with
    | nil =>
      simp only [strcmpEq, Bool.and_eq_true, beq_iff_eq] at e1 e2
      exact absurd (e1.1.symm.trans e2) (isCString_cons h1).1
    | cons c2 cs2 =>
      simp only [strcmpEq, Bool.and_eq_true, beq_iff_eq] at e1 e2
      rw [e1.1.symm.trans e2.1, ih cs2 buf (off + 1) (isCString_cons h1).2 (isCString_cons h2).2 e1.2 e2.2]

/-- Reading back a stored C string. -/
theorem cstring_of_strcmpEq (w : List Nat) : ∀ (buf : Nat → Nat) (n off : Nat),
    isCString w → strcmpEq buf off w = true → w.length < n → cstring buf n off = w := by
  induction w with
  | nil =>
    intro buf n off _ e hn
    simp only [strcmpEq, beq_iff_eq] at e
    cases n with
    | zero => simp at hn
    | succ n => simp [cstring, e]
  | cons c cs ih =>
    intro buf n off hw e hn
    simp only [strcmpEq, Bool.and_eq_true, beq_iff_eq] at e
    cases n with
    | zero => simp at hn
    | succ n =>
      simp only [List.length_cons] at hn
      simp only [cstring, e.1, (isCString_cons hw).1, if_false]
      rw [ih buf n (off + 1) (isCString_cons hw).2 e.2 (by omega)]

theorem dhashcode_lt (s : List Nat) : dhashcode s < DHASHSIZE := by
  unfold dhashcode
  induction s using List.reverseRecOn with
  | nil => decide
  | append_singleton s c _ =>
    simp only [List.foldl_append, List.foldl_cons, List.foldl_nil, dhashstep]
    exact Nat.mod_lt _ (by decide)

/-! ## The chain scan of `dictentry` -/

theorem chainscan_some (words : dictwords) (c : dicthashchain) (w : List Nat) :
    ∀ (n i k : Nat), chainscan words c w n i = some k →
    ∃ j, i ≤ j ∧ j < i + n ∧ c.hitem j = k ∧
      strcmpEq words.dictwordbuf (words.dword k) w = true := by
  intro n
  induction n with
  | zero => intro i k h; simp [chainscan] at h
  | succ n ih =>
    intro i k h
    simp only [chainscan] at h
    split at h
    · rename_i hm
      simp only [Option.some.injEq] at h
      exact ⟨i, Nat.le_refl _, by omega, h, h ▸ hm⟩
    · obtain ⟨j, h1, h2, h3⟩ := ih (i + 1) k h
      exact ⟨j, by omega, by omega, h3⟩

theorem chainscan_none (words : dictwords) (c : dicthashchain) (w : List Nat) :
    ∀ (n i : Nat), chainscan words c w n i = none →
    ∀ j, i ≤ j → j < i + n →
      strcmpEq words.dictwordbuf (words.dword (c.hitem j)) w = false := by
  intro n
  induction n with
  | zero => intro i _ j h1 h2; omega
  | succ n ih =>
    intro i h j h1 h2
    simp only [chainscan] at h
    split at h
    · simp at h
    · rename_i hm
      by_cases hj : j = i
      · subst hj; simpa using hm
      · exact ih (i + 1) h j (by omega) (by omega)

/-! ## The representation invariant -/

theorem getElem?_append_singleton_some {L : List (List Nat)} {w w1 : List Nat} {i : Nat}
    (h : (L ++ [w])[i]? = some w1) :
    (i < L.length ∧ L[i]? = some w1) ∨ (i = L.length ∧ w1 = w) := by
  by_cases hi : i < L.length
  · rw [List.getElem?_append_left hi] at h
    exact Or.inl ⟨hi, h⟩
  · by_cases he : i = L.length
    · subst he
      rw [List.getElem?_concat_length] at h
      exact Or.inr ⟨rfl, (Option.some.inj h).symm⟩
    · have hlen : (L ++ [w]).length ≤ i := by simp; omega
      rw [List.getElem?_eq_none hlen] at h
      cases h

theorem getElem?_append_singleton_of_some {L : List (List Nat)} (w : List Nat) {w1 : List Nat}
    {i : Nat} (h : L[i]? = some w1) : (L ++ [w])[i]? = some w1 := by
  obtain ⟨hi, _⟩ := List.getElem?_eq_some.1 h
  rw [List.getElem?_append_left hi]
  exact h

/-- The insertion of a new word keeps the representation invariant; the capacities
`mi`, `mw`, `mb` are those that the growth tests of `addtodict` leave. -/
theorem WordsRep.insert {words : dictwords} {hchain : Nat → Option dicthashchain}
    {L : List (List Nat)} (hrep : WordsRep words hchain L) {w : List Nat}
    (hw : isCString w) (hnew : w ∉ L) {c : dicthashchain}
    (hch : hchain (dhashcode w) = some c) (mi mw mb : Nat)
    (hmi : c.nitems < mi) (hmw : words.nwords < mw)
    (hmb : words.dwordbufpos + w.length + 1 ≤ mb) (hmbe : mb % 2 = 0) :
    WordsRep
      { dwordbufpos := (words.dwordbufpos + (w.length + 1) + 1)
          - (words.dwordbufpos + (w.length + 1) + 1) % 2,
        dwordbufmax := mb,
        dictwordbuf := strcpy words.dictwordbuf words.dwordbufpos w,
        nwords := words.nwords + 1,
        maxwords := mw,
        dword := store words.dword words.nwords words.dwordbufpos }
      (store hchain (dhashcode w)
        (some { nitems := c.nitems + 1, maxitems := mi,
                hitem := store c.hitem c.nitems words.nwords }))
      (L ++ [w]) := by
  have hn := hrep.nwords_eq
  have hpe := hrep.pos_even
  refine ⟨?_, ?_, ?_, ?_, ?_, ?_, ?_, ?_, ?_, ?_, ?_⟩
  · simp [hn]
  · show words.nwords + 1 ≤ mw
    omega
  · show (words.dwordbufpos + (w.length + 1) + 1)
      - (words.dwordbufpos + (w.length + 1) + 1) % 2 ≤ mb
    omega
  · exact hmbe
  · show ((words.dwordbufpos + (w.length + 1) + 1)
      - (words.dwordbufpos + (w.length + 1) + 1) % 2) % 2 = 0
    omega
  · intro x hx
    rcases List.mem_append.1 hx with h | h
    · exact hrep.cstr x h
    · rw [List.mem_singleton.1 h]; exact hw
  · refine List.Nodup.append hrep.nodup (List.nodup_singleton w) ?_
    intro x hx hx1
    rw [List.mem_singleton.1 hx1] at hx
    exact hnew hx
  · intro i w1 h
    show strcmpEq (strcpy words.dictwordbuf words.dwordbufpos w)
        (store words.dword words.nwords words.dwordbufpos i) w1 = true ∧
      store words.dword words.nwords words.dwordbufpos i + w1.length + 1 ≤
        (words.dwordbufpos + (w.length + 1) + 1)
          - (words.dwordbufpos + (w.length + 1) + 1) % 2
    rcases getElem?_append_singleton_some h with ⟨hi, h1⟩ | ⟨hi, h1⟩
    · obtain ⟨hs, hb⟩ := hrep.stored i w1 h1
      rw [store_other _ _ _ _ (by omega : i ≠ words.nwords)]
      refine ⟨?_, by omega⟩
      rw [strcmpEq_congr w1 words.dictwordbuf _ _
        (fun j _ h2 => strcpy_outside w _ _ _ (Or.inl (by omega)))]
      exact hs
    · subst h1
      rw [hi, ← hn, store_same]
      exact ⟨strcmpEq_strcpy _ _ _, by omega⟩
  · intro h c1 hc1
    by_cases hh : h = dhashcode w
    · subst hh
      rw [store_same] at hc1
      cases hc1
      show c.nitems + 1 ≤ mi
      omega
    · rw [store_other _ _ _ _ hh] at hc1
      exact hrep.chain_le h c1 hc1
  · intro h c1 hc1 j hj
    by_cases hh : h = dhashcode w
    · subst hh
      rw [store_same] at hc1
      cases hc1
      have hj1 : j < c.nitems + 1 := hj
      show ∃ w1, (L ++ [w])[store c.hitem c.nitems words.nwords j]? = some w1 ∧ _
      by_cases hjn : j = c.nitems
      · subst hjn
        rw [store_same, hn]
        exact ⟨w, List.getElem?_concat_length _ _, rfl⟩
      · rw [store_other _ _ _ _ hjn]
        obtain ⟨w1, h1, h2⟩ := hrep.chain_sound _ c hch j (by omega)
        exact ⟨w1, getElem?_append_singleton_of_some w h1, h2⟩
    · rw [store_other _ _ _ _ hh] at hc1
      obtain ⟨w1, h1, h2⟩ := hrep.chain_sound h c1 hc1 j hj
      exact ⟨w1, getElem?_append_singleton_of_some w h1, h2⟩
  · intro i w1 h
    rcases getElem?_append_singleton_some h with ⟨_, h1⟩ | ⟨hi, h1⟩
    · obtain ⟨c1, hc1, j, hj, hji⟩ := hrep.chain_complete i w1 h1
      by_cases hh : dhashcode w1 = dhashcode w
      · rw [hh, store_same]
        rw [hh, hch] at hc1
        cases hc1
        refine ⟨_, rfl, j, Nat.lt_succ_of_lt hj, ?_⟩
        show store c.hitem c.nitems words.nwords j = i
        rw [store_other _ _ _ _ (by omega)]
        exact hji
      · rw [store_other _ _ _ _ hh]
        exact ⟨c1, hc1, j, hj, hji⟩
    · subst h1
      rw [store_same]
      refine ⟨_, rfl, c.nitems, Nat.lt_succ_self _, ?_⟩
      show store c.hitem c.nitems words.nwords c.nitems = i
      rw [store_same, hn, hi]

/-- On a well-formed dictionary `dictentry` finds exactly the stored words. -/
theorem dictentry_of_rep {d : dictionary} {L : List (List Nat)} (hr : DictRep d L)
    {w : List Nat} (hw : isCString w) :
    (∀ i, dictentry d w = some i → L[i]? = some w) ∧ (dictentry d w = none → w ∉ L) := by
  unfold DictRep at hr
  unfold dictentry
  cases hws : d.words with
  | none =>
    rw [hws] at hr
    rw [hr.2 (dhashcode w), hr.1]
    exact ⟨fun i h => (by cases h), fun _ => List.not_mem_nil w⟩
  | some words =>
    rw [hws] at hr
    cases hch : d.hchain (dhashcode w) with
    | none =>
      refine ⟨fun i h => (by cases h), fun _ hmem => ?_⟩
      obtain ⟨i, hi⟩ := List.mem_iff_getElem?.1 hmem
      obtain ⟨c, hc, _⟩ := hr.chain_complete i w hi
      rw [hch] at hc
      cases hc
    | some c =>
      constructor
      · intro k hk
        obtain ⟨j, _, hj, hjk, hs⟩ := chainscan_some words c w _ _ _ hk
        obtain ⟨w1, h1, _⟩ := hr.chain_sound _ c hch j (by omega)
        rw [hjk] at h1
        have hs1 := (hr.stored k w1 h1).1
        have hc1 := hr.cstr w1 (List.mem_iff_getElem?.2 ⟨k, h1⟩)
        rw [strcmpEq_inj w w1 _ _ hw hc1 hs hs1]
        exact h1
      · intro hnone hmem
        obtain ⟨i, hi⟩ := List.mem_iff_getElem?.1 hmem
        obtain ⟨c1, hc1, j, hj, hji⟩ := hr.chain_complete i w hi
        rw [hch] at hc1
        cases hc1
        have hf := chainscan_none words c w _ _ hnone j (Nat.zero_le _) (by omega)
        rw [hji, (hr.stored i w hi).1] at hf
        cases hf

/-! ## The two outcomes of `addtodict` -/

theorem addentry_of_mem {words : dictwords} {table : Nat → Option dicthashchain}
    {L : List (List Nat)} (hrep : WordsRep words table L) {w : List Nat}
    (hw : isCString w) (hmem : w ∈ L) (c : dicthashchain) :
    addentry words table c w = some { words := some words, hchain := table } := by
  have hr : DictRep { words := some words, hchain := table } L := hrep
  unfold addentry
  cases he : dictentry { words := some words, hchain := table } w with
  | none => exact absurd hmem ((dictentry_of_rep hr hw).2 he)
  | some i => rfl

/-- The dictionary that `addentry` builds for a word that is not yet stored. -/
theorem addentry_of_not_mem {words : dictwords} {table : Nat → Option dicthashchain}
    {L : List (List Nat)} (hrep : WordsRep words table L) {w : List Nat}
    (hw : isCString w) (hnew : w ∉ L) {c : dicthashchain}
    (hch : table (dhashcode w) = some c) :
    (w.length + 1 ≤ GROWDWORDBUF → (addentry words table c w).isSome = true) ∧
    ∀ d1, addentry words table c w = some d1 →
      ∃ words1, d1.words = some words1 ∧ WordsRep words1 d1.hchain (L ++ [w]) ∧
        words1.nwords = words.nwords + 1 ∧
        words1.dword = store words.dword words.nwords words.dwordbufpos ∧
        words1.dictwordbuf = strcpy words.dictwordbuf words.dwordbufpos w ∧
        words.dwordbufmax ≤ words1.dwordbufmax := by
  have hr : DictRep { words := some words, hchain := table } L := hrep
  have he : dictentry { words := some words, hchain := table } w = none := by
    cases h : dictentry { words := some words, hchain := table } w with
    | none => rfl
    | some i =>
      exact absurd (List.mem_iff_getElem?.2 ⟨i, (dictentry_of_rep hr hw).1 i h⟩) hnew
  have h1 := hrep.chain_le _ c hch
  have h2 := hrep.nwords_le
  have h3 := hrep.pos_le
  have h4 := hrep.max_even
  have hmi : c.nitems <
      (if c.nitems ≥ c.maxitems then c.maxitems + GROWDCHAIN else c.maxitems) := by
    unfold GROWDCHAIN; split <;> omega
  have hmw : words.nwords <
      (if words.nwords ≥ words.maxwords then words.maxwords + GROWDWORDS
        else words.maxwords) := by
    unfold GROWDWORDS; split <;> omega
  have hmbe : (if words.dwordbufpos + w.length + 2 ≥ words.dwordbufmax then
      words.dwordbufmax + GROWDWORDBUF else words.dwordbufmax) % 2 = 0 := by
    unfold GROWDWORDBUF; split <;> omega
  have hmge : words.dwordbufmax ≤
      (if words.dwordbufpos + w.length + 2 ≥ words.dwordbufmax then
        words.dwordbufmax + GROWDWORDBUF else words.dwordbufmax) := by
    split <;> omega
  unfold addentry
  rw [he]
  simp only [if_neg (Nat.not_le.2 hmi), if_neg (Nat.not_le.2 hmw)]
  constructor
  · intro hlen
    have : ¬ (words.dwordbufpos + w.length + 1 >
        (if words.dwordbufpos + w.length + 2 ≥ words.dwordbufmax then
          words.dwordbufmax + GROWDWORDBUF else words.dwordbufmax)) := by
      split <;> omega
    rw [if_neg this]
    rfl
  · intro d1 hd1
    by_cases hfit : words.dwordbufpos + w.length + 1 >
        (if words.dwordbufpos + w.length + 2 ≥ words.dwordbufmax then
          words.dwordbufmax + GROWDWORDBUF else words.dwordbufmax)
    · rw [if_pos hfit] at hd1
      cases hd1
    · rw [if_neg hfit] at hd1
      cases hd1
      exact ⟨_, rfl, hrep.insert hw hnew hch _ _ _ hmi hmw (by omega) hmbe, rfl, rfl, rfl, hmge⟩

/-- The words and the chain table after the allocations of `addtodict` represent the
same words as before. -/
theorem alloc_rep {d : dictionary} {L : List (List Nat)} (hr : DictRep d L) (w : List Nat) :
    (∀ c, d.hchain (dhashcode w) = some c →
      ∃ words, d.words = some words ∧ WordsRep words d.hchain L) ∧
    (d.hchain (dhashcode w) = none →
      WordsRep (wordsof d) (store d.hchain (dhashcode w) (some newchain)) L ∧ w ∉ L) := by
  unfold DictRep at hr
  unfold wordsof
  cases hws : d.words with
  | none =>
    rw [hws] at hr
    refine ⟨fun c hc => ?_, fun _ => ?_⟩
    · rw [hr.2] at hc; cases hc
    · rw [hr.1]
      refine ⟨⟨rfl, Nat.zero_le _, Nat.zero_le _, by decide, rfl, ?_, List.nodup_nil,
        ?_, ?_, ?_, ?_⟩, List.not_mem_nil w⟩
      · intro x hx; cases hx
      · intro i x hx; simp at hx
      · intro h c hc
        by_cases hh : h = dhashcode w
        · subst hh; rw [store_same] at hc; cases hc; exact Nat.zero_le _
        · rw [store_other _ _ _ _ hh, hr.2] at hc; cases hc
      · intro h c hc j hj
        by_cases hh : h = dhashcode w
        · subst hh; rw [store_same] at hc; cases hc; exact absurd hj (Nat.not_lt_zero _)
        · rw [store_other _ _ _ _ hh, hr.2] at hc; cases hc
      · intro i x hx; simp at hx
  | some words =>
    rw [hws] at hr
    refine ⟨fun c _ => ⟨words, rfl, hr⟩, fun hnone => ?_⟩
    have hne : ∀ (i : Nat) (x : List Nat), L[i]? = some x → dhashcode x ≠ dhashcode w := by
      intro i x hx he
      obtain ⟨c, hc, _⟩ := hr.chain_complete i x hx
      rw [he, hnone] at hc
      cases hc
    refine ⟨⟨hr.nwords_eq, hr.nwords_le, hr.pos_le, hr.max_even, hr.pos_even, hr.cstr,
      hr.nodup, hr.stored, ?_, ?_, ?_⟩, ?_⟩
    · intro h c hc
      by_cases hh : h = dhashcode w
      · subst hh; rw [store_same] at hc; cases hc; exact Nat.zero_le _
      · rw [store_other _ _ _ _ hh] at hc; exact hr.chain_le h c hc
    · intro h c hc j hj
      by_cases hh : h = dhashcode w
      · subst hh; rw [store_same] at hc; cases hc; exact absurd hj (Nat.not_lt_zero _)
      · rw [store_other _ _ _ _ hh] at hc; exact hr.chain_sound h c hc j hj
    · intro i x hx
      rw [store_other _ _ _ _ (hne i x hx)]
      exact hr.chain_complete i x hx
    · intro hmem
      obtain ⟨i, hi⟩ := List.mem_iff_getElem?.1 hmem
      exact hne i w hi rfl

theorem addtodict_eq_of_some {d : dictionary} {w : List Nat} {c : dicthashchain}
    (h : d.hchain (dhashcode w) = some c) :
    addtodict d w = addentry (wordsof d) d.hchain c w := by
  unfold addtodict
  simp only [h]

theorem addtodict_eq_of_none {d : dictionary} {w : List Nat}
    (h : d.hchain (dhashcode w) = none) :
    addtodict d w =
      addentry (wordsof d) (store d.hchain (dhashcode w) (some newchain)) newchain w := by
  unfold addtodict
  simp only [h]

theorem wordsof_of_some {d : dictionary} {words : dictwords} (h : d.words = some words) :
    wordsof d = words := by
  unfold wordsof
  rw [h]

/-- A word that is already stored: `addtodict` leaves the dictionary as it is. -/
theorem addtodict_of_mem {d : dictionary} {L : List (List Nat)} (hr : DictRep d L)
    {w : List Nat} (hw : isCString w) (hmem : w ∈ L) : addtodict d w = some d := by
  cases hch : d.hchain (dhashcode w) with
  | none => exact absurd hmem ((alloc_rep hr w).2 hch).2
  | some c =>
    obtain ⟨words, hws, hrep⟩ := (alloc_rep hr w).1 c hch
    rw [addtodict_eq_of_some hch, wordsof_of_some hws, addentry_of_mem hrep hw hmem c]
    cases d
    simp only at hws
    rw [hws]

/-- A word that is not yet stored: `addtodict` appends it as the last entry, at the
offset `dwordbufpos`, and succeeds when the word fits into one growth step. -/
theorem addtodict_of_not_mem {d : dictionary} {L : List (List Nat)} (hr : DictRep d L)
    {w : List Nat} (hw : isCString w) (hnew : w ∉ L) :
    (w.length + 1 ≤ GROWDWORDBUF → (addtodict d w).isSome = true) ∧
    ∀ d1, addtodict d w = some d1 →
      ∃ words1, d1.words = some words1 ∧ WordsRep words1 d1.hchain (L ++ [w]) ∧
        words1.nwords = (wordsof d).nwords + 1 ∧
        words1.dword = store (wordsof d).dword (wordsof d).nwords (wordsof d).dwordbufpos ∧
        words1.dictwordbuf = strcpy (wordsof d).dictwordbuf (wordsof d).dwordbufpos w ∧
        (wordsof d).dwordbufmax ≤ words1.dwordbufmax := by
  cases hch : d.hchain (dhashcode w) with
  | none =>
    rw [addtodict_eq_of_none hch]
    exact addentry_of_not_mem ((alloc_rep hr w).2 hch).1 hw hnew (store_same _ _ _)
  | some c =>
    obtain ⟨words, hws, hrep⟩ := (alloc_rep hr w).1 c hch
    rw [addtodict_eq_of_some hch, wordsof_of_some hws]
    exact addentry_of_not_mem hrep hw hnew hch

/-! ## Dictionaries reachable from the empty dictionary -/

theorem rep_emptydict : DictRep emptydict [] := ⟨rfl, fun _ => rfl⟩

theorem rep_addtodict {d d1 : dictionary} {L : List (List Nat)} (hr : DictRep d L)
    {w : List Nat} (hw : isCString w) (h : addtodict d w = some d1) :
    DictRep d1 (insertword L w) := by
  unfold insertword
  by_cases hmem : w ∈ L
  · rw [if_pos hmem]
    rw [addtodict_of_mem hr hw hmem] at h
    cases h
    exact hr
  · rw [if_neg hmem]
    obtain ⟨words1, h1, h2, _⟩ := (addtodict_of_not_mem hr hw hmem).2 d1 h
    unfold DictRep
    rw [h1]
    exact h2

theorem rep_addwords (ws : List (List Nat)) : ∀ {d d1 : dictionary} {L : List (List Nat)},
    DictRep d L → (∀ x ∈ ws, isCString x) → addwords d ws = some d1 →
    DictRep d1 (ws.foldl insertword L) := by
  induction ws with
  | nil =>
    intro d d1 L hr _ h
    simp only [addwords, Option.some.injEq] at h
    subst h
    exact hr
  | cons w ws ih =>
    intro d d1 L hr hws h
    simp only [addwords] at h
    cases h2 : addtodict d w with
    | none => rw [h2] at h; cases h
    | some d2 =>
      rw [h2] at h
      exact ih (rep_addtodict hr (hws w (List.mem_cons_self _ _)) h2)
        (fun x hx => hws x (List.mem_cons_of_mem _ hx)) h

theorem foldl_insertword (ws : List (List Nat)) : ∀ acc : List (List Nat),
    ws.foldl insertword acc = acc ++ (firstOccurrences ws).filter (fun x => decide (x ∉ acc)) := by
  induction ws with
  | nil => intro acc; simp [firstOccurrences]
  | cons w ws ih =>
    intro acc
    simp only [List.foldl_cons, firstOccurrences]
    rw [ih]
    unfold insertword
    by_cases hmem : w ∈ acc
    · rw [if_pos hmem, List.filter_cons_of_neg (by simpa using hmem), List.filter_filter]
      congr 1
      apply List.filter_congr
      intro x _
      by_cases hx : x ∈ acc
      · simp [hx]
      · have : x ≠ w := fun e => hx (e ▸ hmem)
        simp [hx, this]
    · rw [if_neg hmem, List.filter_cons_of_pos (by simpa using hmem), List.filter_filter,
        List.append_assoc]
      congr 1
      simp only [List.singleton_append, List.cons.injEq, true_and]
      apply List.filter_congr
      intro x _
      by_cases hx : x ∈ acc
      · simp [hx]
      · by_cases hxw : x = w
        · simp [hxw]
        · simp [hx, hxw]

theorem foldl_insertword_nil (ws : List (List Nat)) :
    ws.foldl insertword [] = firstOccurrences ws := by
  rw [foldl_insertword]
  simp

theorem mem_firstOccurrences (ws : List (List Nat)) (w : List Nat) :
    w ∈ firstOccurrences ws ↔ w ∈ ws := by
  induction ws with
  | nil => simp [firstOccurrences]
  | cons x xs ih =>
    simp only [firstOccurrences, List.mem_cons, List.mem_filter, ih]
    by_cases h : w = x <;> simp [h]

/-- A dictionary reached from the empty dictionary by `addtodict` calls represents the
distinct words of the calls in order of first occurrence. -/
theorem rep_of_addwords {ws : List (List Nat)} {d : dictionary}
    (hws : ∀ x ∈ ws, isCString x) (hd : addwords emptydict ws = some d) :
    DictRep d (firstOccurrences ws) := by
  have h := rep_addwords ws rep_emptydict hws hd
  rw [foldl_insertword_nil] at h
  exact h

theorem nwords_of_rep {d : dictionary} {L : List (List Nat)} (hr : DictRep d L) :
    nwords d = L.length := by
  unfold DictRep at hr
  unfold nwords
  cases hws : d.words with
  | none => rw [hws] at hr; rw [hr.1]; rfl
  | some words => rw [hws] at hr; exact hr.nwords_eq

theorem wordsof_rep {d : dictionary} {L : List (List Nat)} (hr : DictRep d L) :
    ∀ i w, L[i]? = some w →
      strcmpEq (wordsof d).dictwordbuf ((wordsof d).dword i) w = true ∧
      (wordsof d).dword i + w.length + 1 ≤ (wordsof d).dwordbufpos ∧
      (wordsof d).dwordbufpos ≤ (wordsof d).dwordbufmax ∧ isCString w := by
  unfold DictRep at hr
  unfold wordsof
  intro i w h
  cases hws : d.words with
  | none => rw [hws] at hr; rw [hr.1] at h; simp at h
  | some words =>
    rw [hws] at hr
    exact ⟨(hr.stored i w h).1, (hr.stored i w h).2, hr.pos_le,
      hr.cstr w (List.mem_iff_getElem?.2 ⟨i, h⟩)⟩

/-- The word read at entry `i` of a well-formed dictionary is the `i`-th word. -/
theorem dictwordat_of_rep {d : dictionary} {L : List (List Nat)} (hr : DictRep d L)
    {i : Nat} {w : List Nat} (h : L[i]? = some w) : dictwordat (wordsof d) i = w := by
  obtain ⟨h1, h2, h3, h4⟩ := wordsof_rep hr i w h
  unfold dictwordat
  exact cstring_of_strcmpEq w _ _ _ h4 h1 (by omega)

theorem dictlist_of_rep {d : dictionary} {L : List (List Nat)} (hr : DictRep d L) :
    dictlist d = L := by
  have hn := nwords_of_rep hr
  have hw : ∀ i w, L[i]? = some w → dictwordat (wordsof d) i = w :=
    fun i w h => dictwordat_of_rep hr h
  unfold dictlist
  unfold nwords at hn
  unfold wordsof at hw
  cases hws : d.words with
  | none =>
    rw [hws] at hn
    exact (List.length_eq_zero.1 hn.symm).symm
  | some words =>
    rw [hws] at hn hw
    simp only at hn hw ⊢
    apply List.ext_getElem?
    intro i
    rw [List.getElem?_map]
    by_cases hi : i < L.length
    · rw [List.getElem?_range (by omega)]
      have hsome : L[i]? = some L[i] := List.getElem?_eq_some.2 ⟨hi, rfl⟩
      rw [hsome]
      simp only [Option.map_some']
      rw [hw i _ hsome]
    · rw [List.getElem?_eq_none (Nat.le_of_not_lt hi),
        List.getElem?_eq_none (by rw [List.length_range]; omega)]
      rfl

theorem nodup_of_rep {d : dictionary} {L : List (List Nat)} (hr : DictRep d L) :
    L.Nodup := by
  unfold DictRep at hr
  cases hws : d.words with
  | none => rw [hws] at hr; rw [hr.1]; exact List.nodup_nil
  | some words => rw [hws] at hr; exact hr.nodup

/-! ## The claims on the dictionary -/

/-- C1. Dictionary insert is idempotent: for a dictionary `d` reached from the empty
dictionary by `addtodict` calls and a word `w`, inserting `w` a second time gives the very
state that the first insert gave; the word count and the result of `dictentry` for `w` are
what they were after the first insert.  The first insert itself succeeds for every word
shorter than one growth step of the word buffer. -/
theorem addtodict_idempotent (ws : List (List Nat)) (w : List Nat) (d : dictionary)
    (hws : ∀ x ∈ ws, isCString x) (hw : isCString w)
    (hd : addwords emptydict ws = some d) :
    (addtodict d w).bind (fun d1 => addtodict d1 w) = addtodict d w ∧
    (w.length < GROWDWORDBUF → ∃ d1, addtodict d w = some d1) ∧
    ∀ d1, addtodict d w = some d1 →
      addtodict d1 w = some d1 ∧
      ∀ d2, addtodict d1 w = some d2 →
        d2 = d1 ∧ nwords d2 = nwords d1 ∧ dictentry d2 w = dictentry d1 w := by
  have hr := rep_of_addwords hws hd
  have hsecond : ∀ d1, addtodict d w = some d1 → addtodict d1 w = some d1 := by
    intro d1 h1
    have hr1 := rep_addtodict hr hw h1
    refine addtodict_of_mem hr1 hw ?_
    unfold insertword
    split
    · assumption
    · exact List.mem_append_right _ (List.mem_singleton_self w)
  refine ⟨?_, ?_, ?_⟩
  · cases h1 : addtodict d w with
    | none => rfl
    | some d1 => exact hsecond d1 h1
  · intro hlen
    by_cases hmem : w ∈ firstOccurrences ws
    · exact ⟨d, addtodict_of_mem hr hw hmem⟩
    · exact Option.isSome_iff_exists.1 ((addtodict_of_not_mem hr hw hmem).1 hlen)
  · intro d1 h1
    refine ⟨hsecond d1 h1, ?_⟩
    intro d2 h2
    rw [hsecond d1 h1] at h2
    cases h2
    exact ⟨rfl, rfl, rfl⟩

/-- The idempotence of `addtodict` on the dictionary {dog} and the word "gar". -/
theorem addtodict_idempotent_witness :
    addwords emptydict [[100, 111, 103]] = some dogdict ∧
    (addtodict dogdict [103, 97, 114]).bind (fun d1 => addtodict d1 [103, 97, 114]) =
      addtodict dogdict [103, 97, 114] :=
  ⟨rfl, (addtodict_idempotent [[100, 111, 103]] [103, 97, 114] dogdict (by decide)
    (by decide) rfl).1⟩

/-- C2. No duplicates: in a dictionary reached from the empty dictionary by any sequence
of `addtodict` calls, two entry indices below `nwords` that refer to equal word content
are the same index. -/
theorem no_duplicate_entries (ws : List (List Nat)) (d : dictionary)
    (hws : ∀ x ∈ ws, isCString x) (hd : addwords emptydict ws = some d)
    (i j : Nat) (hi : i < nwords d) (hj : j < nwords d)
    (he : dictword d i = dictword d j) : i = j := by
  have hr := rep_of_addwords hws hd
  rw [nwords_of_rep hr] at hi hj
  have h1 : (firstOccurrences ws)[i]? = some (firstOccurrences ws)[i] :=
    List.getElem?_eq_some.2 ⟨hi, rfl⟩
  have h2 : (firstOccurrences ws)[j]? = some (firstOccurrences ws)[j] :=
    List.getElem?_eq_some.2 ⟨hj, rfl⟩
  unfold dictword at he
  rw [dictwordat_of_rep hr h1, dictwordat_of_rep hr h2] at he
  exact (nodup_of_rep hr).getElem_inj_iff.1 he

/-- The dictionary built from dog, gar, dog holds two entries, and they differ. -/
theorem no_duplicate_entries_witness :
    addwords emptydict [[100, 111, 103], [103, 97, 114], [100, 111, 103]] = some doggardict ∧
    1 < nwords doggardict ∧ dictword doggardict 1 = dictword doggardict 1 ∧ 1 = 1 :=
  ⟨rfl, by decide, rfl,
    no_duplicate_entries [[100, 111, 103], [103, 97, 114], [100, 111, 103]] doggardict
      (by decide) rfl 1 1 (by decide) (by decide) rfl⟩

/-- C3. Membership is exact: for a dictionary `d` reached from the empty dictionary by the
`addtodict` calls `ws` and a word `w`, `dictentry d w` is an entry index whose stored bytes
are `w` exactly when `w` is one of `ws`, and is the not-found value exactly when it is
not; words that share a hash chain are told apart. -/
theorem dictentry_exact (ws : List (List Nat)) (w : List Nat) (d : dictionary)
    (hws : ∀ x ∈ ws, isCString x) (hw : isCString w)
    (hd : addwords emptydict ws = some d) :
    ((∃ i, dictentry d w = some i ∧ i < nwords d ∧ dictword d i = w) ↔ w ∈ ws) ∧
    (dictentry d w = none ↔ w ∉ ws) := by
  have hr := rep_of_addwords hws hd
  have hspec := dictentry_of_rep hr hw
  have hfound : ∀ i, dictentry d w = some i → i < nwords d ∧ dictword d i = w := by
    intro i hi
    have h1 := hspec.1 i hi
    rw [nwords_of_rep hr]
    exact ⟨(List.getElem?_eq_some.1 h1).1, dictwordat_of_rep hr h1⟩
  have hmem : ∀ i, dictentry d w = some i → w ∈ ws := fun i hi =>
    (mem_firstOccurrences ws w).1 (List.mem_iff_getElem?.2 ⟨i, hspec.1 i hi⟩)
  refine ⟨⟨fun ⟨i, hi, _⟩ => hmem i hi, fun h => ?_⟩, ⟨fun h => ?_, fun h => ?_⟩⟩
  · cases he : dictentry d w with
    | none => exact absurd ((mem_firstOccurrences ws w).2 h) (hspec.2 he)
    | some i => exact ⟨i, rfl, hfound i he⟩
  · exact fun hin => hspec.2 h ((mem_firstOccurrences ws w).2 hin)
  · cases he : dictentry d w with
    | none => rfl
    | some i => exact absurd (hmem i he) h

/-- In the dictionary {dog, gar} the two words share the hash chain 1333: "gar" is found
at index 1 and "bfj", of the same hash code, is not found. -/
theorem dictentry_exact_witness :
    addwords emptydict [[100, 111, 103], [103, 97, 114]] = some doggardict ∧
    dhashcode [100, 111, 103] = dhashcode [103, 97, 114] ∧
    dictentry doggardict [103, 97, 114] = some 1 ∧
    (dictentry doggardict [98, 102, 106] = none ↔
      [98, 102, 106] ∉ [[100, 111, 103], [103, 97, 114]]) :=
  ⟨rfl, by decide, by decide,
    (dictentry_exact [[100, 111, 103], [103, 97, 114]] [98, 102, 106] doggardict
      (by decide) (by decide) rfl).2⟩

/-- C4. Iteration order: after any sequence `ws` of `addtodict` calls on the empty
dictionary, the words listed by entry index `0 .. nwords - 1` are the distinct words of
`ws` in order of first insertion, whatever their hash codes. -/
theorem iteration_order (ws : List (List Nat)) (d : dictionary)
    (hws : ∀ x ∈ ws, isCString x) (hd : addwords emptydict ws = some d) :
    dictlist d = firstOccurrences ws ∧ nwords d = (firstOccurrences ws).length := by
  have hr := rep_of_addwords hws hd
  exact ⟨dictlist_of_rep hr, nwords_of_rep hr⟩

/-- The calls dog, gar, dog leave the entries dog, gar. -/
theorem iteration_order_witness :
    addwords emptydict [[100, 111, 103], [103, 97, 114], [100, 111, 103]] = some doggardict ∧
    dictlist doggardict = [[100, 111, 103], [103, 97, 114]] :=
  ⟨rfl, (iteration_order [[100, 111, 103], [103, 97, 114], [100, 111, 103]] doggardict
    (by decide) rfl).1⟩

/-- C5. Offsets are stable and strictly increasing: an `addtodict` of a new word `w`
makes it the last entry, at an offset that is at least the offset of every earlier entry
plus the length of that entry plus 1, and leaves the offset and the stored bytes of every
earlier entry as they were; this holds for every outcome of the growth tests of the word
buffer, the offset array and the hash chain.  The insert succeeds for every word shorter
than one growth step. -/
theorem offsets_stable (ws : List (List Nat)) (w : List Nat) (d d1 : dictionary)
    (hws : ∀ x ∈ ws, isCString x) (hw : isCString w)
    (hd : addwords emptydict ws = some d) (hnew : w ∉ ws)
    (h1 : addtodict d w = some d1) :
    nwords d1 = nwords d + 1 ∧ dictword d1 (nwords d) = w ∧
    (∀ i, i < nwords d →
      dictoffset d i + (dictword d i).length + 1 ≤ dictoffset d1 (nwords d) ∧
      dictoffset d1 i = dictoffset d i ∧ dictword d1 i = dictword d i) ∧
    (∀ j, j < (wordsof d).dwordbufpos →
      (wordsof d1).dictwordbuf j = (wordsof d).dictwordbuf j) ∧
    (w.length < GROWDWORDBUF → (addtodict d w).isSome = true) := by
  have hr := rep_of_addwords hws hd
  have hnew1 : w ∉ firstOccurrences ws := fun h => hnew ((mem_firstOccurrences ws w).1 h)
  obtain ⟨words1, e1, hrep1, e2, e3, e4, _⟩ := (addtodict_of_not_mem hr hw hnew1).2 d1 h1
  have hr1 : DictRep d1 (firstOccurrences ws ++ [w]) := by
    unfold DictRep; rw [e1]; exact hrep1
  have hw1 : wordsof d1 = words1 := wordsof_of_some e1
  have hn := nwords_of_rep hr
  have hnw : (wordsof d).nwords = nwords d := by
    unfold wordsof nwords
    cases d.words <;> rfl
  refine ⟨?_, ?_, ?_, ?_, (addtodict_of_not_mem hr hw hnew1).1⟩
  · rw [nwords_of_rep hr1, hn]; simp
  · rw [hn]
    exact dictwordat_of_rep hr1 (List.getElem?_concat_length _ _)
  · intro i hi
    rw [hn] at hi
    have hsome : (firstOccurrences ws)[i]? = some (firstOccurrences ws)[i] :=
      List.getElem?_eq_some.2 ⟨hi, rfl⟩
    obtain ⟨_, hb, _, _⟩ := wordsof_rep hr i _ hsome
    have hoff : dictoffset d1 (nwords d) = (wordsof d).dwordbufpos := by
      unfold dictoffset
      rw [hw1, e3, ← hnw, store_same]
    have hoffi : dictoffset d1 i = dictoffset d i := by
      unfold dictoffset
      rw [hw1, e3, store_other _ _ _ _ (by omega)]
    refine ⟨?_, hoffi, ?_⟩
    · unfold dictword
      rw [hoff, dictwordat_of_rep hr hsome]
      exact hb
    · unfold dictword
      rw [dictwordat_of_rep hr hsome,
        dictwordat_of_rep hr1 (getElem?_append_singleton_of_some w hsome)]
  · intro j hj
    rw [hw1, e4]
    exact strcpy_outside w _ _ _ (Or.inl hj)

/-- The insert of "gar" into {dog}: "dog" stays at offset 0 and "gar" is stored at 4. -/
theorem offsets_stable_witness :
    addwords emptydict [[100, 111, 103]] = some dogdict ∧
    addtodict dogdict [103, 97, 114] = some doggardict ∧
    dictoffset doggardict 0 = 0 ∧ dictoffset doggardict 1 = 4 ∧
    dictword doggardict 1 = [103, 97, 114] :=
  ⟨rfl, rfl, by decide, by decide,
    (offsets_stable [[100, 111, 103]] [103, 97, 114] dogdict doggardict (by decide)
      (by decide) rfl (by decide) rfl).2.1⟩

/-! ## The generator -/

theorem eq_some_getD {α : Type} (o : Option α) (a : α) (h : o.isSome = true) :
    o = some (o.getD a) := by
  cases o with
  | none => cases h
  | some x => rfl

theorem isCString_of_isalpha {w : List Nat} (h : ∀ c ∈ w, isalpha c = true) :
    isCString w := by
  intro c hc
  have := h c hc
  unfold isalpha at this
  simp only [Bool.or_eq_true, Bool.and_eq_true, decide_eq_true_eq] at this
  omega

theorem gibberletters_letters (useagerules : Nat → Option useageentry) :
    ∀ (n : Nat) (s : gibberstate) (acc w : List Nat) (s1 : gibberstate),
    gibberletters useagerules n s acc = some (w, s1) →
    (∀ c ∈ acc, isalpha c = true) → ∀ c ∈ w, isalpha c = true := by
  intro n
  induction n with
  | zero => intro s acc w s1 h; simp [gibberletters] at h
  | succ n ih =>
    intro s acc w s1 h hacc
    simp only [gibberletters] at h
    split at h
    · rename_i hc
      refine ih _ _ w s1 h ?_
      intro c hmem
      rcases List.mem_append.1 hmem with h1 | h1
      · exact hacc c h1
      · rw [List.mem_singleton.1 h1]; exact hc
    · simp only [Option.some.injEq, Prod.mk.injEq] at h
      rw [← h.1]
      exact hacc

theorem nextgibberword_letters (useagerules : Nat → Option useageentry) :
    ∀ (fuel : Nat) (s : gibberstate) (w : List Nat) (s1 : gibberstate),
    nextgibberword useagerules fuel s = some (w, s1) →
    w ≠ [] ∧ ∀ c ∈ w, isalpha c = true := by
  intro fuel
  induction fuel with
  | zero => intro s w s1 h; simp [nextgibberword] at h
  | succ fuel ih =>
    intro s w s1 h
    simp only [nextgibberword] at h
    split at h
    · cases h
    · rename_i w0 s0 hl
      split at h
      · exact ih _ _ _ h
      · rename_i hlen
        simp only [Option.some.injEq, Prod.mk.injEq] at h
        rw [← h.1]
        refine ⟨fun e => hlen (by rw [e]; rfl), ?_⟩
        exact gibberletters_letters useagerules _ _ _ _ _ hl (fun c hc => by cases hc)

theorem nextcandidate_kept (useagerules : Nat → Option useageentry)
    (languagedict exclusiondict : dictionary) (gibberminlen gibbermaxlen : Int) :
    ∀ (fuel : Nat) (s : gibberstate) (w : List Nat) (s1 : gibberstate),
    nextcandidate useagerules languagedict exclusiondict gibberminlen gibbermaxlen fuel s
      = some (w, s1) →
    keepcandidate languagedict exclusiondict gibberminlen gibbermaxlen w = true ∧
      w ≠ [] ∧ ∀ c ∈ w, isalpha c = true := by
  intro fuel
  induction fuel with
  | zero => intro s w s1 h; simp [nextcandidate] at h
  | succ fuel ih =>
    intro s w s1 h
    simp only [nextcandidate] at h
    split at h
    · cases h
    · rename_i w0 s0 hw
      split at h
      · rename_i hk
        simp only [Option.some.injEq, Prod.mk.injEq] at h
        rw [← h.1]
        exact ⟨hk, nextgibberword_letters useagerules _ _ _ _ hw⟩
      · exact ih _ _ _ h

/-- What a kept candidate satisfies. -/
theorem keepcandidate_iff (languagedict exclusiondict : dictionary)
    (gibberminlen gibbermaxlen : Int) (w : List Nat) :
    keepcandidate languagedict exclusiondict gibberminlen gibbermaxlen w = true ↔
      toSizeT gibberminlen ≤ w.length ∧ w.length ≤ toSizeT gibbermaxlen ∧
      dictentry languagedict w = none ∧ dictentry exclusiondict w = none := by
  unfold keepcandidate
  cases h1 : dictentry languagedict w <;> cases h2 : dictentry exclusiondict w <;>
    simp [Nat.not_lt]

/-- The run of `makegibberdict` on a well-formed output dictionary: the dictionary is
extended by kept candidates only, and the run ends as soon as the size test fails. -/
theorem makegibberdict_rep (useagerules : Nat → Option useageentry)
    (languagedict exclusiondict : dictionary) (gibberlimit gibberminlen gibbermaxlen : Int) :
    ∀ (fuel : Nat) (gibberdict : dictionary) (s : gibberstate) (L : List (List Nat))
      (r : dictionary × gibberstate),
    DictRep gibberdict L →
    makegibberdict useagerules languagedict exclusiondict gibberlimit gibberminlen
      gibbermaxlen fuel gibberdict s = some r →
    ∃ added, DictRep r.1 (L ++ added) ∧
      (∀ w ∈ added,
        keepcandidate languagedict exclusiondict gibberminlen gibbermaxlen w = true) ∧
      toSizeT gibberlimit ≤ (L ++ added).length ∧
      (L.length < toSizeT gibberlimit → (L ++ added).length = toSizeT gibberlimit) ∧
      (toSizeT gibberlimit ≤ L.length → added.length ≤ 1) := by
  intro fuel
  induction fuel with
  | zero => intro gd s L r _ h; simp [makegibberdict] at h
  | succ fuel ih =>
    intro gd s L r hr h
    simp only [makegibberdict] at h
    split at h
    · cases h
    · rename_i w s1 hcand
      obtain ⟨hk, _, hletters⟩ := nextcandidate_kept _ _ _ _ _ _ _ _ _ hcand
      split at h
      · cases h
      · rename_i gd1 hadd
        have hr1 := rep_addtodict hr (isCString_of_isalpha hletters) hadd
        have hn1 := nwords_of_rep hr1
        have hins : ∃ a, insertword L w = L ++ a ∧ a.length ≤ 1 ∧ ∀ x ∈ a, x = w := by
          unfold insertword
          split
          · exact ⟨[], by simp, by simp, fun x hx => by cases hx⟩
          · exact ⟨[w], rfl, by simp, fun x hx => List.mem_singleton.1 hx⟩
        obtain ⟨a, ha, hal, haw⟩ := hins
        rw [ha] at hr1 hn1
        split at h
        · rename_i hlt
          obtain ⟨added, h1, h2, h3, h4, _⟩ := ih gd1 s1 (L ++ a) r hr1 h
          rw [hn1] at hlt
          rw [List.append_assoc] at h1 h3 h4
          refine ⟨a ++ added, h1, ?_, h3, fun _ => h4 hlt, ?_⟩
          · intro x hx
            rcases List.mem_append.1 hx with hx1 | hx1
            · rw [haw x hx1]; exact hk
            · exact h2 x hx1
          · intro hge
            simp only [List.length_append] at hlt
            omega
        · rename_i hge
          simp only [Option.some.injEq] at h
          subst h
          rw [hn1] at hge
          refine ⟨a, hr1, ?_, Nat.le_of_not_lt hge, ?_, fun _ => hal⟩
          · intro x hx
            rw [haw x hx]; exact hk
          · intro hlt
            simp only [List.length_append] at hge ⊢
            omega

theorem addedwords_of_rep {gd gd1 : dictionary} {L added : List (List Nat)}
    (hr : DictRep gd L) (hr1 : DictRep gd1 (L ++ added)) :
    addedwords (nwords gd) gd1 = added ∧ dictlist gd1 = dictlist gd ++ added := by
  unfold addedwords
  rw [nwords_of_rep hr, dictlist_of_rep hr1, dictlist_of_rep hr]
  simp

theorem toSizeT_of_nonneg {i : Int} (h0 : 0 ≤ i) (h1 : i < 2 ^ 31) :
    (toSizeT i : Int) = i := by
  unfold toSizeT
  have h2 : i % (2 ^ 64 : Int) = i := Int.emod_eq_of_lt h0 (by omega)
  rw [h2]
  exact Int.toNat_of_nonneg h0

theorem toSizeT_le_of_nonneg {i : Int} (h0 : 0 ≤ i) : (toSizeT i : Int) ≤ i := by
  unfold toSizeT
  have h2 : 0 ≤ i % (2 ^ 64 : Int) := Int.emod_nonneg _ (by norm_num)
  rw [Int.toNat_of_nonneg h2]
  omega

/-! ## The claims on `makegibberdict` -/

/-- C6, as stated, fails: after the training on "aaaaa" the call `makegibberdict(1, 1, -1)`
returns and has added the word "aa", whose length 2 is not at most the maximum `-1`
(the `int` `-1` is compared as the `size_t` `2 ^ 64 - 1`). -/
theorem makegibberdict_negative_maxlen :
    makegibberdict aaaaatrained.1 aaaaatrained.2 emptydict 1 1 (-1) 3 emptydict seedstate
      = some unboundedrun ∧
    ∃ w ∈ addedwords (nwords emptydict) unboundedrun.1,
      ¬ ((1 : Int) ≤ (w.length : Int) ∧ (w.length : Int) ≤ -1) :=
  ⟨eq_some_getD _ _ (by decide!), [97, 97], by decide!, by decide⟩

/-- C6 (amended). Bound law: for every call `makegibberdict(limit, minLen, maxLen)` with
`1 ≤ minLen` and `0 ≤ maxLen` that returns, every word that the call added to the output
dictionary has a length `L` with `minLen ≤ L ≤ maxLen`, both bounds inclusive. -/
theorem makegibberdict_bounds (useagerules : Nat → Option useageentry)
    (languagedict exclusiondict : dictionary) (gibberlimit gibberminlen gibbermaxlen : Int)
    (fuel : Nat) (gs : List (List Nat)) (gibberdict : dictionary) (s : gibberstate)
    (r : dictionary × gibberstate)
    (hgs : ∀ x ∈ gs, isCString x) (hgd : addwords emptydict gs = some gibberdict)
    (hmin : 1 ≤ gibberminlen) (hint : isInt gibberminlen) (hmax : 0 ≤ gibbermaxlen)
    (hrun : makegibberdict useagerules languagedict exclusiondict gibberlimit gibberminlen
      gibbermaxlen fuel gibberdict s = some r) :
    dictlist r.1 = dictlist gibberdict ++ addedwords (nwords gibberdict) r.1 ∧
    ∀ w ∈ addedwords (nwords gibberdict) r.1,
      gibberminlen ≤ (w.length : Int) ∧ (w.length : Int) ≤ gibbermaxlen := by
  have hr := rep_of_addwords hgs hgd
  obtain ⟨added, h1, h2, _⟩ := makegibberdict_rep _ _ _ _ _ _ _ _ _ _ _ hr hrun
  obtain ⟨e1, e2⟩ := addedwords_of_rep hr h1
  rw [e1]
  refine ⟨e2, fun w hw => ?_⟩
  obtain ⟨k1, k2, _, _⟩ := (keepcandidate_iff _ _ _ _ _).1 (h2 w hw)
  have t1 := toSizeT_of_nonneg (by omega : 0 ≤ gibberminlen) hint.2
  have t2 := toSizeT_le_of_nonneg hmax
  constructor
  · rw [← t1]; exact Int.ofNat_le.2 k1
  · exact Int.le_trans (Int.ofNat_le.2 k2) t2

/-- After the training on "aaaaa" the call `makegibberdict(3, 2, 6)` returns with the
words aa, aaa, aaaaaa. -/
theorem makegibberdict_bounds_witness :
    makegibberdict aaaaatrained.1 aaaaatrained.2 emptydict 3 2 6 4 emptydict seedstate
      = some boundedrun ∧
    dictlist boundedrun.1 = [[97, 97], [97, 97, 97], [97, 97, 97, 97, 97, 97]] ∧
    ∀ w ∈ addedwords (nwords emptydict) boundedrun.1,
      (2 : Int) ≤ (w.length : Int) ∧ (w.length : Int) ≤ 6 :=
  ⟨eq_some_getD _ _ (by decide!), by decide!,
    (makegibberdict_bounds aaaaatrained.1 aaaaatrained.2 emptydict 3 2 6 4 [] emptydict
      seedstate boundedrun (by decide) rfl (by decide) (by decide) (by decide)
      (eq_some_getD _ _ (by decide!))).2⟩

/-- C7. Exclusion law: for every call of `makegibberdict` that returns, no word that the
call added to the output dictionary is an entry of the training dictionary `languagedict`
or of the exclusion dictionary `exclusiondict`. -/
theorem makegibberdict_excludes (useagerules : Nat → Option useageentry)
    (languagedict exclusiondict : dictionary) (gibberlimit gibberminlen gibbermaxlen : Int)
    (fuel : Nat) (ls xs gs : List (List Nat)) (gibberdict : dictionary) (s : gibberstate)
    (r : dictionary × gibberstate)
    (hls : ∀ x ∈ ls, isCString x) (hlang : addwords emptydict ls = some languagedict)
    (hxs : ∀ x ∈ xs, isCString x) (hexcl : addwords emptydict xs = some exclusiondict)
    (hgs : ∀ x ∈ gs, isCString x) (hgd : addwords emptydict gs = some gibberdict)
    (hrun : makegibberdict useagerules languagedict exclusiondict gibberlimit gibberminlen
      gibbermaxlen fuel gibberdict s = some r) :
    dictlist r.1 = dictlist gibberdict ++ addedwords (nwords gibberdict) r.1 ∧
    ∀ w ∈ addedwords (nwords gibberdict) r.1,
      w ∉ dictlist languagedict ∧ w ∉ dictlist exclusiondict ∧
      dictentry languagedict w = none ∧ dictentry exclusiondict w = none := by
  have hr := rep_of_addwords hgs hgd
  have hrl := rep_of_addwords hls hlang
  have hrx := rep_of_addwords hxs hexcl
  obtain ⟨added, h1, h2, _⟩ := makegibberdict_rep _ _ _ _ _ _ _ _ _ _ _ hr hrun
  obtain ⟨e1, e2⟩ := addedwords_of_rep hr h1
  rw [e1]
  refine ⟨e2, fun w hw => ?_⟩
  obtain ⟨_, _, k3, k4⟩ := (keepcandidate_iff _ _ _ _ _).1 (h2 w hw)
  have hcs : isCString w := by
    have hmem : w ∈ firstOccurrences gs ++ added := List.mem_append_right _ hw
    unfold DictRep at h1
    cases hws : r.1.words with
    | none => rw [hws] at h1; rw [h1.1] at hmem; cases hmem
    | some words => rw [hws] at h1; exact h1.cstr w hmem
  rw [dictlist_of_rep hrl, dictlist_of_rep hrx]
  exact ⟨(dictentry_of_rep hrl hcs).2 k3, (dictentry_of_rep hrx hcs).2 k4, k3, k4⟩

/-- After the training on "aaaaa" the call `makegibberdict(3, 2, 6)` adds no entry of the
training dictionary {aaaaa}: the candidate "aaaaa", drawn first, is dropped. -/
theorem makegibberdict_excludes_witness :
    addwords emptydict [[97, 97, 97, 97, 97]] = some aaaaatrained.2 ∧
    makegibberdict aaaaatrained.1 aaaaatrained.2 emptydict 3 2 6 4 emptydict seedstate
      = some boundedrun ∧
    ∀ w ∈ addedwords (nwords emptydict) boundedrun.1,
      w ∉ dictlist aaaaatrained.2 ∧ w ∉ dictlist emptydict ∧
      dictentry aaaaatrained.2 w = none ∧ dictentry emptydict w = none :=
  ⟨rfl, eq_some_getD _ _ (by decide!),
    (makegibberdict_excludes aaaaatrained.1 aaaaatrained.2 emptydict 3 2 6 4
      [[97, 97, 97, 97, 97]] [] [] emptydict seedstate boundedrun (by decide) rfl
      (by decide) rfl (by decide) rfl (eq_some_getD _ _ (by decide!))).2⟩

/-- C8, as stated, fails: after the training on "aaaaa" a first call
`makegibberdict(1, 1, 8)` leaves one word, and a second call `makegibberdict(1, 1, 8)`,
made when the output dictionary already holds `limit = 1` words, returns with the two
words "aa" and "aaa": it has added a word, and the final size is not `max(1, 1)`. -/
theorem makegibberdict_adds_at_limit :
    makegibberdict aaaaatrained.1 aaaaatrained.2 emptydict 1 1 8 3 emptydict seedstate
      = some firstrun ∧
    makegibberdict aaaaatrained.1 aaaaatrained.2 emptydict 1 1 8 3 firstrun.1 firstrun.2
      = some secondrun ∧
    nwords firstrun.1 = 1 ∧ dictlist secondrun.1 = [[97, 97], [97, 97, 97]] ∧
    addedwords (nwords firstrun.1) secondrun.1 ≠ [] ∧
    nwords secondrun.1 ≠ max (nwords firstrun.1) 1 :=
  ⟨eq_some_getD _ _ (by decide!), eq_some_getD _ _ (by decide!), by decide!, by decide!,
    by decide!, by decide!⟩

/-- C8 (amended). `makegibberdict` generates and inserts one accepted word before it
first tests the size, and goes on only while the output dictionary holds fewer than
`limit` words.  For every call with `0 ≤ limit` that returns: the entries are pairwise
distinct and the final size is at least `limit`; when the initial size is below `limit`
the final size is exactly `limit`; when the initial size is already at least `limit` the
call adds at most one word. -/
theorem makegibberdict_size (useagerules : Nat → Option useageentry)
    (languagedict exclusiondict : dictionary) (gibberlimit gibberminlen gibbermaxlen : Int)
    (fuel : Nat) (gs : List (List Nat)) (gibberdict : dictionary) (s : gibberstate)
    (r : dictionary × gibberstate)
    (hgs : ∀ x ∈ gs, isCString x) (hgd : addwords emptydict gs = some gibberdict)
    (hlim : 0 ≤ gibberlimit) (hint : isInt gibberlimit)
    (hrun : makegibberdict useagerules languagedict exclusiondict gibberlimit gibberminlen
      gibbermaxlen fuel gibberdict s = some r) :
    dictlist r.1 = dictlist gibberdict ++ addedwords (nwords gibberdict) r.1 ∧
    (dictlist r.1).Nodup ∧
    gibberlimit ≤ (nwords r.1 : Int) ∧
    ((nwords gibberdict : Int) < gibberlimit → (nwords r.1 : Int) = gibberlimit) ∧
    (gibberlimit ≤ (nwords gibberdict : Int) →
      (addedwords (nwords gibberdict) r.1).length ≤ 1 ∧
      nwords r.1 ≤ nwords gibberdict + 1) := by
  have hr := rep_of_addwords hgs hgd
  obtain ⟨added, h1, _, h3, h4, h5⟩ := makegibberdict_rep _ _ _ _ _ _ _ _ _ _ _ hr hrun
  obtain ⟨e1, e2⟩ := addedwords_of_rep hr h1
  have t := toSizeT_of_nonneg hlim hint.2
  have n0 := nwords_of_rep hr
  have n1 := nwords_of_rep h1
  rw [e1, n0, n1]
  refine ⟨e2, ?_, ?_, ?_, ?_⟩
  · rw [dictlist_of_rep h1]; exact nodup_of_rep h1
  · rw [← t]; exact Int.ofNat_le.2 h3
  · intro hlt
    rw [← t] at hlt ⊢
    rw [h4 (Int.ofNat_lt.1 hlt)]
  · intro hge
    rw [← t] at hge
    have := h5 (Int.ofNat_le.1 hge)
    simp only [List.length_append]
    omega

/-- The call `makegibberdict(3, 2, 6)` on the empty output dictionary ends with 3 words. -/
theorem makegibberdict_size_witness :
    makegibberdict aaaaatrained.1 aaaaatrained.2 emptydict 3 2 6 4 emptydict seedstate
      = some boundedrun ∧
    ((nwords emptydict : Int) < 3 → (nwords boundedrun.1 : Int) = 3) :=
  ⟨eq_some_getD _ _ (by decide!),
    (makegibberdict_size aaaaatrained.1 aaaaatrained.2 emptydict 3 2 6 4 [] emptydict
      seedstate boundedrun (by decide) rfl (by decide) (by decide)
      (eq_some_getD _ _ (by decide!))).2.2.2.1⟩

/-! ## The claims on the generator -/

theorem chainindex_eq (r n : Nat) :
    chainindex r n = r * (n % 32768) / 32768 + n / 32768 * r := by
  unfold chainindex RNDMOD
  have h : n - n / 32768 * 32768 = n % 32768 := by omega
  simp only [h]

/-- C9. The pick stays in range: for `0 ≤ r < 32768` and a chain length `n ≥ 1`, also
`n ≥ 32768`, the index `floor(r * (n mod 32768) / 32768) + (n div 32768) * r` that
`nextgibberchar` computes is below `n`; so the character that `nextgibberchar` returns for
an existing chain is one of the `nchars` characters of that chain. -/
theorem chainindex_lt (r n : Nat) (hr : r < 32768) (hn : 1 ≤ n) :
    chainindex r n = r * (n % 32768) / 32768 + n / 32768 * r ∧ chainindex r n < n ∧
    ∀ (useagerules : Nat → Option useageentry) (s : gibberstate) (e : useageentry),
      useagerules s.gibbercharpairhash = some e → s.gibberrandnum = r → e.nchars = n →
      ∃ i, i < e.nchars ∧ (nextgibberchar useagerules s).1 = e.charchain i := by
  have hlt : chainindex r n < n := by
    rw [chainindex_eq]
    have h1 : n / 32768 * r ≤ n / 32768 * 32767 := Nat.mul_le_mul_left _ (by omega)
    have h2 : r * (n % 32768) / 32768 ≤ n % 32768 - 1 ∨ n % 32768 = 0 := by
      by_cases h0 : n % 32768 = 0
      · exact Or.inr h0
      · left
        have h3 : r * (n % 32768) < 32768 * (n % 32768) :=
          Nat.mul_lt_mul_of_pos_right hr (by omega)
        have h4 : r * (n % 32768) / 32768 < n % 32768 :=
          Nat.div_lt_of_lt_mul h3
        omega
    rcases h2 with h2 | h2
    · omega
    · rw [h2]
      simp only [Nat.mul_zero, Nat.zero_div, Nat.zero_add]
      omega
  refine ⟨chainindex_eq r n, hlt, ?_⟩
  intro useagerules s e he hs hen
  refine ⟨chainindex r n, by rw [hen]; exact hlt, ?_⟩
  unfold nextgibberchar
  simp only [he, hs, hen]

/-- The largest random number and a chain of 32773 characters: the index is 32771. -/
theorem chainindex_lt_witness :
    (32767 : Nat) < 32768 ∧ 1 ≤ 32773 ∧ chainindex 32767 32773 = 32771 ∧
    chainindex 32767 32773 < 32773 :=
  ⟨by decide, by decide, by decide,
    (chainindex_lt 32767 32773 (by decide) (by decide)).2.1⟩

/-- C10, as stated, fails: `gibbercharcount` is an `unsigned int`, so at the count
`2 ^ 32 - 1` a call of `nextgibberchar` leaves the count `0`, not `k + 1`. -/
theorem nextgibberchar_count_wraps :
    (nextgibberchar norules
      { gibbercharcount := 4294967295, gibbercharpairhash := 8224,
        gibberrandnum := 17 }).2.gibbercharcount = 0 ∧
    (nextgibberchar norules
      { gibbercharcount := 4294967295, gibbercharpairhash := 8224,
        gibberrandnum := 17 }).2.gibbercharcount ≠ 4294967295 + 1 := by
  decide

theorem draws_stream (l : List ((Nat → Option useageentry) × Nat)) :
    ∀ (s : gibberstate) (j : Nat),
    (s.gibberrandnum, s.gibbercharcount) = rndstream j →
    ((draws l s).gibberrandnum, (draws l s).gibbercharcount) = rndstream (j + l.length) := by
  induction l with
  | nil => intro s j h; exact h
  | cons a l ih =>
    intro s j h
    obtain ⟨useagerules, k⟩ := a
    simp only [draws, List.length_cons]
    rw [← Nat.add_assoc, Nat.add_right_comm]
    apply ih
    simp only [rndstream, ← h]
    rfl

/-- C10 (amended). The generator stream is deterministic and independent of the model:
every `nextgibberchar` call maps the state `(r, k)` to
`((r * 2005 + 1 + (k mod 2005)) mod 32768, (k + 1) mod 2 ^ 32)`, whatever the usage rules,
the window key and the character drawn (the missing-chain branch included); so the state
after `j` draws from the seed `(r = 17, k = 0)` is a function of `j` alone and `r` stays
below `32768`; at the seed state the pick for a chain of 5 characters is index 0 and the
state after that draw is `r = 1318`, `k = 1`. -/
theorem generator_stream (useagerules : Nat → Option useageentry) (s : gibberstate)
    (l : List ((Nat → Option useageentry) × Nat)) :
    ((nextgibberchar useagerules s).2.gibberrandnum,
        (nextgibberchar useagerules s).2.gibbercharcount)
      = ((s.gibberrandnum * 2005 + 1 + s.gibbercharcount % 2005) % 32768,
          (s.gibbercharcount + 1) % 2 ^ 32) ∧
    (nextgibberchar useagerules s).2.gibberrandnum < 32768 ∧
    ((draws l seedstate).gibberrandnum, (draws l seedstate).gibbercharcount)
      = rndstream l.length ∧
    (draws l seedstate).gibberrandnum < 32768 ∧
    chainindex seedstate.gibberrandnum 5 = 0 ∧
    ((nextgibberchar useagerules
          { seedstate with gibbercharpairhash := s.gibbercharpairhash }).2.gibberrandnum,
      (nextgibberchar useagerules
          { seedstate with gibbercharpairhash := s.gibbercharpairhash }).2.gibbercharcount)
      = (1318, 1) := by
  have hstream := draws_stream l seedstate 0 rfl
  rw [Nat.zero_add] at hstream
  refine ⟨rfl, Nat.mod_lt _ (by decide), hstream, ?_, by decide,
    by
      show ((17 * 2005 + 1 + 0 % 2005) % 32768, (0 + 1) % 2 ^ 32) = (1318, 1)
      decide⟩
  have h1 : (draws l seedstate).gibberrandnum = (rndstream l.length).1 := by
    rw [← hstream]
  rw [h1]
  cases l.length with
  | zero => decide
  | succ j => exact Nat.mod_lt _ (by decide)

/-! ## The claims on the tokenizer -/

/-- C11 on the text of the claim: the text "cat dog dog bird", which ends with its last
letter, yields the words cat, dog, dog only, as the run "bird" is ended by the end of the
file, where `nextsourceword` returns `NULL`; followed by a line end the text yields
cat, dog, dog, bird. -/
theorem sourcewords_catdogtext :
    sourcewords 17 catdogtext = some [[99, 97, 116], [100, 111, 103], [100, 111, 103]] ∧
    nextsourceword [98, 105, 114, 100] [] = some (none, []) ∧
    sourcewords 18 (catdogtext ++ [10])
      = some [[99, 97, 116], [100, 111, 103], [100, 111, 103], [98, 105, 114, 100]] := by
  decide

theorem foldbyte_table :
    ∀ i, i < 64 →
      isalpha (isotoalpha1.getD i 0) = true ∧
      (isotoalpha2.getD i 0 = 0 ∨ isalpha (isotoalpha2.getD i 0) = true) ∧
      ((foldbyte (192 + i)).length = 1 ∨ (foldbyte (192 + i)).length = 2) ∧
      (∀ c ∈ foldbyte (192 + i), islowercase c) := by
  decide

theorem foldbyte_of_le {c : Nat} (h : c ≤ 191) : foldbyte c = [tolower c] := by
  unfold foldbyte
  have h1 : ¬ c > 191 := by omega
  simp [h1]

theorem foldbyte_of_ge {c : Nat} (h : 256 ≤ c) : foldbyte c = [0] := by
  unfold foldbyte
  have h1 : c > 191 := by omega
  have h2 : isotoalpha1.length ≤ c - 192 := by
    have : isotoalpha1.length = 64 := by decide
    omega
  have h3 : isotoalpha2.length ≤ c - 192 := by
    have : isotoalpha2.length = 64 := by decide
    omega
  simp only [h1, if_true, List.getD_eq_default _ _ h2, List.getD_eq_default _ _ h3]
  decide

theorem foldbyte_of_accent {b : Nat} (h1 : 192 ≤ b) (h2 : b ≤ 255) :
    isalpha (isotoalpha1.getD (b - 192) 0) = true ∧
    (isotoalpha2.getD (b - 192) 0 = 0 ∨ isalpha (isotoalpha2.getD (b - 192) 0) = true) ∧
    ((foldbyte b).length = 1 ∨ (foldbyte b).length = 2) ∧
    (∀ c ∈ foldbyte b, islowercase c) := by
  have h := foldbyte_table (b - 192) (by omega)
  have e : 192 + (b - 192) = b := by omega
  rw [e] at h
  exact h

theorem isalpha_tolower {c : Nat} (h : isalpha (tolower c) = true) : islowercase (tolower c) := by
  unfold isalpha at h
  unfold islowercase
  unfold tolower at h ⊢
  simp only [Bool.or_eq_true, Bool.and_eq_true, decide_eq_true_eq] at h
  split at h <;> rename_i hc
  · rw [if_pos hc]; omega
  · rw [if_neg hc]; omega

theorem isalpha_of_islowercase {c : Nat} (h : islowercase c) : isalpha c = true := by
  unfold islowercase at h
  unfold isalpha
  simp only [Bool.or_eq_true, Bool.and_eq_true, decide_eq_true_eq]
  omega

/-- The bytes stored for one byte of the file: all but the last one are lower-case
letters, and the last one is a lower-case letter when it is a letter at all. -/
theorem foldbyte_letters (b : Nat) :
    foldbyte b ≠ [] ∧ (∀ c ∈ (foldbyte b).dropLast, islowercase c) ∧
    (isalpha ((foldbyte b).getLastD 0) = true → ∀ c ∈ foldbyte b, islowercase c) := by
  by_cases h1 : b ≤ 191
  · rw [foldbyte_of_le h1]
    refine ⟨by simp, by simp, ?_⟩
    intro h c hc
    simp only [List.getLastD_cons, List.getLastD_nil] at h
    rw [List.mem_singleton.1 hc]
    exact isalpha_tolower h
  · by_cases h2 : b ≤ 255
    · obtain ⟨_, _, h5, h6⟩ := foldbyte_of_accent (by omega : 192 ≤ b) h2
      refine ⟨?_, fun c hc => h6 c (List.mem_of_mem_dropLast hc), fun _ => h6⟩
      intro e
      rw [e] at h5
      simp at h5
    · rw [foldbyte_of_ge (by omega)]
      refine ⟨by simp, by simp, ?_⟩
      intro h
      simp [isalpha] at h

theorem nextsourceword_letters (stream : List Nat) :
    ∀ (buf w rest : List Nat), (∀ c ∈ buf, islowercase c) →
    nextsourceword stream buf = some (some w, rest) →
    w ≠ [] ∧ ∀ c ∈ w, islowercase c := by
  induction stream with
  | nil => intro buf w rest _ h; simp [nextsourceword] at h
  | cons b stream ih =>
    intro buf w rest hbuf h
    obtain ⟨hne, hdrop, hall⟩ := foldbyte_letters b
    simp only [nextsourceword] at h
    split at h
    · cases h
    · split at h
      · rename_i hlast
        refine ih _ w rest ?_ h
        have hl : (buf ++ foldbyte b).getLastD 0 = (foldbyte b).getLastD 0 := by
          rw [List.getLastD_eq_getLast?, List.getLastD_eq_getLast?,
            List.getLast?_append_of_ne_nil _ hne]
        rw [hl] at hlast
        intro c hc
        rcases List.mem_append.1 hc with h1 | h1
        · exact hbuf c h1
        · exact hall hlast c h1
      · split at h
        · exact ih [] w rest (fun c hc => by cases hc) h
        · rename_i hlen
          simp only [Option.some.injEq, Prod.mk.injEq] at h
          obtain ⟨hw, _⟩ := h
          subst hw
          refine ⟨fun e => hlen (by rw [e]; rfl), ?_⟩
          intro c hc
          have hc1 := (List.takeWhile_sublist _).subset hc
          rw [List.dropLast_append_of_ne_nil _ hne] at hc1
          rcases List.mem_append.1 hc1 with h1 | h1
          · exact hbuf c h1
          · exact hdrop c h1

theorem cstringof_of_islowercase {l : List Nat} (h : ∀ c ∈ l, islowercase c) :
    cstringof l = l := by
  unfold cstringof
  rw [List.takeWhile_eq_self_iff]
  intro x hx
  have hx1 := h x hx
  unfold islowercase at hx1
  simp only [ne_eq, decide_not, Bool.not_eq_true', decide_eq_false_iff_not]
  omega

theorem getLastD_append_foldbyte (buf : List Nat) (b : Nat) :
    (buf ++ foldbyte b).getLastD 0 = (foldbyte b).getLastD 0 := by
  rw [List.getLastD_eq_getLast?, List.getLastD_eq_getLast?,
    List.getLast?_append_of_ne_nil _ (foldbyte_letters b).1]

theorem isalpha_getLastD_accent {b : Nat} (h1 : 192 ≤ b) (h2 : b ≤ 255) :
    isalpha ((foldbyte b).getLastD 0) = true := by
  obtain ⟨_, _, _, t4⟩ := foldbyte_of_accent h1 h2
  have hne : foldbyte b ≠ [] := (foldbyte_letters b).1
  rw [List.getLastD_eq_getLast?]
  cases hl : (foldbyte b).getLast? with
  | none => exact absurd (List.getLast?_eq_none_iff.1 hl) hne
  | some c => exact isalpha_of_islowercase (t4 c (List.mem_of_getLast?_eq_some hl))

/-- A byte on which the inner loop stops stores one byte only. -/
theorem foldbyte_separator {sep : Nat} (h : isalpha ((foldbyte sep).getLastD 0) = false) :
    ∃ x, foldbyte sep = [x] := by
  by_cases h1 : sep ≤ 191
  · exact ⟨_, foldbyte_of_le h1⟩
  · by_cases h2 : sep ≤ 255
    · rw [isalpha_getLastD_accent (by omega) h2] at h
      cases h
    · exact ⟨0, foldbyte_of_ge (by omega)⟩

theorem foldbytes_append (xs ys : List Nat) :
    foldbytes (xs ++ ys) = foldbytes xs ++ foldbytes ys := by
  induction xs with
  | nil => rfl
  | cons x xs ih =>
    show foldbyte x ++ foldbytes (xs ++ ys) = foldbyte x ++ foldbytes xs ++ foldbytes ys
    rw [ih, List.append_assoc]

theorem foldbytes_of_le (bs : List Nat) (h : ∀ x ∈ bs, x ≤ 191) :
    foldbytes bs = bs.map tolower := by
  induction bs with
  | nil => rfl
  | cons x xs ih =>
    simp only [foldbytes, List.map_cons]
    rw [foldbyte_of_le (h x (List.mem_cons_self _ _)),
      ih (fun y hy => h y (List.mem_cons_of_mem _ hy))]
    rfl

/-- One round of the inner loop on a byte whose last stored byte is a letter: the stored
bytes are appended and the loop goes on. -/
theorem nextsourceword_letterbyte (b : Nat) (rest buf : List Nat)
    (hl : isalpha ((foldbyte b).getLastD 0) = true)
    (hlen : (buf ++ foldbyte b).length ≤ STRINGBUFSIZE) :
    nextsourceword (b :: rest) buf = nextsourceword rest (buf ++ foldbyte b) := by
  simp only [nextsourceword]
  rw [if_neg (by omega), getLastD_append_foldbyte, if_pos hl]

/-- A run of letter bytes that a separator follows: the word is the folded run, and an
empty word makes the outer loop start again. -/
theorem nextsourceword_run (bs : List Nat) :
    ∀ (buf : List Nat) (sep : Nat) (rest : List Nat), (∀ c ∈ buf, islowercase c) →
    (∀ x ∈ bs, isalpha ((foldbyte x).getLastD 0) = true) →
    isalpha ((foldbyte sep).getLastD 0) = false →
    (buf ++ foldbytes bs).length + 1 ≤ STRINGBUFSIZE →
    nextsourceword (bs ++ sep :: rest) buf =
      if (buf ++ foldbytes bs).length = 0 then nextsourceword rest []
      else some (some (buf ++ foldbytes bs), rest) := by
  induction bs with
  | nil =>
    intro buf sep rest hbuf _ hsep hlen
    obtain ⟨x, hx⟩ := foldbyte_separator hsep
    simp only [foldbytes, List.append_nil, List.nil_append] at hlen ⊢
    simp only [nextsourceword]
    rw [getLastD_append_foldbyte, hsep, hx, List.dropLast_concat,
      cstringof_of_islowercase hbuf]
    rw [if_neg (by rw [List.length_append, List.length_singleton]; omega)]
    simp
  | cons b bs ih =>
    intro buf sep rest hbuf hbs hsep hlen
    have hb := hbs b (List.mem_cons_self _ _)
    simp only [foldbytes, ← List.append_assoc] at hlen ⊢
    rw [List.cons_append, nextsourceword_letterbyte b _ buf hb
      (by rw [List.length_append] at hlen; omega)]
    refine ih (buf ++ foldbyte b) sep rest ?_ (fun y hy => hbs y (List.mem_cons_of_mem _ hy))
      hsep hlen
    intro c hc
    rcases List.mem_append.1 hc with h1 | h1
    · exact hbuf c h1
    · exact (foldbyte_letters b).2.2 hb c h1

/-- C19. Accent folding yields letters only: for every byte `b` in `192 .. 255` the entry
of `isotoalpha1` is an ASCII letter and the entry of `isotoalpha2` is `0` or an ASCII
letter, so `nextsourceword` stores one or two lower-case letters for `b` and does not end
the word on it (198 and 230 give "ae", 223 gives "ss"); a byte up to 191 is stored as it
is, lower-cased; and every word that `nextsourceword` returns is a non-empty string of
the letters `a .. z`.  About `nextsourceword` itself, while the stored bytes fit into
`stringbuf`: on the byte `b` it appends the letters of `b` to the word and goes on with
the rest of the file; on a letter up to 191 it appends the lower-cased letter and goes
on; a run of letter bytes that holds `b` and that a separator follows is returned as one
word, the letters of `b` in their place; and a run of letters up to 191 that a separator
follows is returned lower-cased. -/
theorem accent_folding (b : Nat) (h1 : 192 ≤ b) (h2 : b ≤ 255) :
    isalpha (isotoalpha1.getD (b - 192) 0) = true ∧
    (isotoalpha2.getD (b - 192) 0 = 0 ∨ isalpha (isotoalpha2.getD (b - 192) 0) = true) ∧
    ((foldbyte b).length = 1 ∨ (foldbyte b).length = 2) ∧
    (∀ c ∈ foldbyte b, islowercase c) ∧
    (∀ buf : List Nat, isalpha ((buf ++ foldbyte b).getLastD 0) = true) ∧
    foldbyte 198 = [97, 101] ∧ foldbyte 230 = [97, 101] ∧ foldbyte 223 = [115, 115] ∧
    (∀ c, c ≤ 191 → foldbyte c = [tolower c]) ∧
    (∀ stream w rest, nextsourceword stream [] = some (some w, rest) →
      w ≠ [] ∧ ∀ c ∈ w, islowercase c) ∧
    (∀ rest buf : List Nat, (buf ++ foldbyte b).length ≤ STRINGBUFSIZE →
      nextsourceword (b :: rest) buf = nextsourceword rest (buf ++ foldbyte b)) ∧
    (∀ (c : Nat) (rest buf : List Nat), c ≤ 191 → isalpha (tolower c) = true →
      buf.length + 1 ≤ STRINGBUFSIZE →
      nextsourceword (c :: rest) buf = nextsourceword rest (buf ++ [tolower c])) ∧
    (∀ (pre post : List Nat) (sep : Nat) (rest : List Nat),
      (∀ x ∈ pre ++ post, isalpha ((foldbyte x).getLastD 0) = true) →
      isalpha ((foldbyte sep).getLastD 0) = false →
      (foldbytes pre ++ foldbyte b ++ foldbytes post).length + 1 ≤ STRINGBUFSIZE →
      nextsourceword ((pre ++ b :: post) ++ sep :: rest) [] =
        some (some (foldbytes pre ++ foldbyte b ++ foldbytes post), rest)) ∧
    (∀ (bs : List Nat) (sep : Nat) (rest : List Nat), bs ≠ [] →
      (∀ x ∈ bs, x ≤ 191 ∧ isalpha (tolower x) = true) →
      sep ≤ 191 → isalpha (tolower sep) = false → bs.length + 1 ≤ STRINGBUFSIZE →
      nextsourceword (bs ++ sep :: rest) [] = some (some (bs.map tolower), rest)) := by
  obtain ⟨t1, t2, t3, t4⟩ := foldbyte_of_accent h1 h2
  have hb : isalpha ((foldbyte b).getLastD 0) = true := isalpha_getLastD_accent h1 h2
  have hne : foldbyte b ≠ [] := (foldbyte_letters b).1
  refine ⟨t1, t2, t3, t4, ?_, by decide, by decide, by decide,
    fun c hc => foldbyte_of_le hc,
    fun stream w rest h => nextsourceword_letters stream [] w rest (fun c hc => by cases hc) h,
    fun rest buf hlen => nextsourceword_letterbyte b rest buf hb hlen, ?_, ?_, ?_⟩
  · intro buf
    rw [getLastD_append_foldbyte]
    exact hb
  · intro c rest buf hc hl hlen
    have hf := foldbyte_of_le hc
    have h := nextsourceword_letterbyte c rest buf (by rw [hf]; exact hl)
      (by rw [hf, List.length_append, List.length_singleton]; exact hlen)
    rw [hf] at h
    exact h
  · intro pre post sep rest hall hsep hlen
    have hfold : foldbytes (pre ++ b :: post) = foldbytes pre ++ foldbyte b ++ foldbytes post := by
      rw [foldbytes_append, List.append_assoc]
      rfl
    have hrun := nextsourceword_run (pre ++ b :: post) [] sep rest (fun c hc => by cases hc)
      (fun x hx => by
        rcases List.mem_append.1 hx with hx1 | hx1
        · exact hall x (List.mem_append_left _ hx1)
        · rcases List.mem_cons.1 hx1 with hx2 | hx2
          · rw [hx2]; exact hb
          · exact hall x (List.mem_append_right _ hx2))
      hsep (by rw [List.nil_append, hfold]; exact hlen)
    rw [List.nil_append, hfold] at hrun
    rw [hrun, if_neg]
    intro h0
    have h1 := List.length_pos.2 hne
    simp only [List.length_append] at h0
    omega
  · intro bs sep rest hbs hall hsep hna hlen
    have hfold : foldbytes bs = bs.map tolower := foldbytes_of_le bs (fun x hx => (hall x hx).1)
    have hrun := nextsourceword_run bs [] sep rest (fun c hc => by cases hc)
      (fun x hx => by rw [foldbyte_of_le (hall x hx).1]; exact (hall x hx).2)
      (by rw [foldbyte_of_le hsep]; exact hna)
      (by rw [List.nil_append, hfold, List.length_map]; exact hlen)
    rw [List.nil_append, hfold] at hrun
    rw [hrun, if_neg]
    intro h0
    have h1 := List.length_pos.2 hbs
    rw [List.length_map] at h0
    omega

/-- The byte 223 (the sharp s): both tables hold the letter S, and of the text "Straße "
`nextsourceword` returns the word "strasse" and leaves nothing of the file. -/
theorem accent_folding_witness :
    (192 : Nat) ≤ 223 ∧ (223 : Nat) ≤ 255 ∧ foldbyte 223 = [115, 115] ∧
    isalpha (isotoalpha1.getD (223 - 192) 0) = true ∧
    nextsourceword [83, 116, 114, 97, 223, 101, 32] [] =
      some (some [115, 116, 114, 97, 115, 115, 101], []) :=
  ⟨by decide, by decide, by decide, (accent_folding 223 (by decide) (by decide)).1,
    (accent_folding 223 (by decide) (by decide)).2.2.2.2.2.2.2.2.2.2.2.2.1
      [83, 116, 114, 97] [101] 32 [] (by decide) (by decide) (by decide)⟩

/-! ## The training dictionary -/

theorem makeusagerules_rep (srcwordlen : Nat) (ts : List (List Nat)) :
    ∀ (R R1 : Nat → Option useageentry) (d d1 : dictionary) (L : List (List Nat)),
    DictRep d L → (∀ w ∈ ts, isCString w) →
    makeusagerules srcwordlen ts (R, d) = some (R1, d1) →
    DictRep d1
      ((ts.filter (fun w => decide (srcwordlen ≤ w.length))).foldl insertword L) := by
  induction ts with
  | nil =>
    intro R R1 d d1 L hr _ h
    simp only [makeusagerules, Option.some.injEq, Prod.mk.injEq] at h
    rw [← h.2]
    exact hr
  | cons w ts ih =>
    intro R R1 d d1 L hr hts h
    have hw := hts w (List.mem_cons_self _ _)
    have hts1 : ∀ x ∈ ts, isCString x := fun x hx => hts x (List.mem_cons_of_mem _ hx)
    simp only [makeusagerules] at h
    by_cases hlen : srcwordlen ≤ w.length
    · rw [List.filter_cons_of_pos (by simpa using hlen), List.foldl_cons]
      rw [if_pos hlen] at h
      cases he : dictentry d w with
      | some i =>
        rw [he] at h
        have hmem : w ∈ L := List.mem_iff_getElem?.2 ⟨i, (dictentry_of_rep hr hw).1 i he⟩
        have hins : insertword L w = L := by unfold insertword; rw [if_pos hmem]
        rw [hins]
        exact ih R R1 d d1 L hr hts1 h
      | none =>
        rw [he] at h
        cases ha : addtodict d w with
        | none => rw [ha] at h; cases h
        | some d2 =>
          rw [ha] at h
          simp only at h
          split at h
          · cases h
          · exact ih _ R1 d2 d1 _ (rep_addtodict hr hw ha) hts1 h
    · rw [List.filter_cons_of_neg (by simpa using hlen)]
      rw [if_neg hlen] at h
      exact ih R R1 d d1 L hr hts1 h

theorem makeusagerules_isSome (srcwordlen : Nat) (ts : List (List Nat)) :
    ∀ (R : Nat → Option useageentry) (d : dictionary) (L : List (List Nat)),
    DictRep d L → (∀ w ∈ ts, isCString w) → (∀ w ∈ ts, w.length + 2 ≤ STRINGBUFSIZE) →
    (makeusagerules srcwordlen ts (R, d)).isSome = true := by
  induction ts with
  | nil => intro R d L _ _ _; rfl
  | cons w ts ih =>
    intro R d L hr hts hlens
    have hw := hts w (List.mem_cons_self _ _)
    have hl := hlens w (List.mem_cons_self _ _)
    have hts1 : ∀ x ∈ ts, isCString x := fun x hx => hts x (List.mem_cons_of_mem _ hx)
    have hlens1 : ∀ x ∈ ts, x.length + 2 ≤ STRINGBUFSIZE :=
      fun x hx => hlens x (List.mem_cons_of_mem _ hx)
    simp only [makeusagerules]
    split
    · cases he : dictentry d w with
      | some i => exact ih R d L hr hts1 hlens1
      | none =>
        have hnew : w ∉ L := (dictentry_of_rep hr hw).2 he
        have hsome := (addtodict_of_not_mem hr hw hnew).1
          (by unfold STRINGBUFSIZE at hl; unfold GROWDWORDBUF; omega)
        obtain ⟨d2, ha⟩ := Option.isSome_iff_exists.1 hsome
        simp only [ha]
        rw [if_neg (by omega)]
        exact ih _ d2 _ (rep_addtodict hr hw ha) hts1 hlens1
    · exact ih R d L hr hts1 hlens1

/-- C12. Training dictionary content: for every sequence `ts` of tokens that
`makeusagerules` receives, starting from an empty training dictionary, the training
dictionary holds the distinct tokens of length at least `srcwordlen`, each once, in order
of first occurrence; the run succeeds for tokens that leave room in `stringbuf` for the
space and the terminator. -/
theorem training_dictionary (srcwordlen : Nat) (ts : List (List Nat))
    (R R1 : Nat → Option useageentry) (d1 : dictionary)
    (hts : ∀ w ∈ ts, isCString w)
    (hrun : makeusagerules srcwordlen ts (R, emptydict) = some (R1, d1)) :
    dictlist d1 = firstOccurrences (ts.filter (fun w => decide (srcwordlen ≤ w.length))) ∧
    nwords d1 =
      (firstOccurrences (ts.filter (fun w => decide (srcwordlen ≤ w.length)))).length ∧
    ((∀ w ∈ ts, w.length + 2 ≤ STRINGBUFSIZE) →
      (makeusagerules srcwordlen ts (R, emptydict)).isSome = true) := by
  have hr := makeusagerules_rep srcwordlen ts R R1 emptydict d1 [] rep_emptydict hts hrun
  rw [foldl_insertword_nil] at hr
  exact ⟨dictlist_of_rep hr, nwords_of_rep hr,
    makeusagerules_isSome srcwordlen ts R emptydict [] rep_emptydict hts⟩

/-- The tokens cat, dog, dog, bird with `srcwordlen` 3 leave the training dictionary
cat, dog, bird, of 3 entries. -/
theorem training_dictionary_witness :
    makeusagerules 3 [[99, 97, 116], [100, 111, 103], [100, 111, 103], [98, 105, 114, 100]]
      (norules, emptydict) = some (catdogtrained.1, catdogtrained.2) ∧
    dictlist catdogtrained.2 = [[99, 97, 116], [100, 111, 103], [98, 105, 114, 100]] ∧
    nwords catdogtrained.2 = 3 :=
  ⟨eq_some_getD _ (norules, emptydict) (by decide!),
    (training_dictionary 3
      [[99, 97, 116], [100, 111, 103], [100, 111, 103], [98, 105, 114, 100]]
      norules catdogtrained.1 catdogtrained.2 (by decide)
      (eq_some_getD _ (norules, emptydict) (by decide!))).1,
    (training_dictionary 3
      [[99, 97, 116], [100, 111, 103], [100, 111, 103], [98, 105, 114, 100]]
      norules catdogtrained.1 catdogtrained.2 (by decide)
      (eq_some_getD _ (norules, emptydict) (by decide!))).2.1⟩

/-! ## The buckets after a word -/

theorem appendedto_nil (key : Nat) : appendedto key [] = [] := rfl

theorem appendedto_append (key : Nat) (l1 l2 : List (Nat × Nat)) :
    appendedto key (l1 ++ l2) = appendedto key l1 ++ appendedto key l2 := by
  unfold appendedto
  rw [List.filter_append, List.map_append]

theorem appendedto_cons (key : Nat) (p : Nat × Nat) (l : List (Nat × Nat)) :
    appendedto key (p :: l) = appendedto key [p] ++ appendedto key l :=
  appendedto_append key [p] l

theorem mem_appendedto {key c : Nat} {l : List (Nat × Nat)} :
    c ∈ appendedto key l ↔ (key, c) ∈ l := by
  unfold appendedto
  constructor
  · intro h
    obtain ⟨p, hp, e⟩ := List.mem_map.1 h
    obtain ⟨hp1, hp2⟩ := List.mem_filter.1 hp
    have hk : p.1 = key := by simpa using hp2
    have : p = (key, c) := by rw [← hk, ← e]
    rw [← this]
    exact hp1
  · intro h
    exact List.mem_map.2 ⟨(key, c), List.mem_filter.2 ⟨h, by simp⟩, rfl⟩

/-- One round of the inner loop of `makeusagerules` appends its character to the chain
of the pair and leaves every other chain as it is. -/
theorem bucket_usagechar (R : Nat → Option useageentry) (pp pc c key : Nat) :
    bucket (usagechar R pp pc c) key =
      bucket R key ++ appendedto key [(pp * 256 + pc, c % 256)] := by
  unfold usagechar bucket appendedto
  by_cases hk : key = pp * 256 + pc
  · subst hk
    simp only [store_same, decide_True, List.filter_cons_of_pos, List.filter_nil,
      List.map_cons, List.map_nil]
    cases R (pp * 256 + pc) with
    | none => simp [store, List.range_succ]
    | some e =>
      simp only
      rw [List.range_succ, List.map_append, List.map_cons, List.map_nil, store_same]
      congr 1
      apply List.map_congr_left
      intro i hi
      exact store_other _ _ _ _ (by have := List.mem_range.1 hi; omega)
  · rw [store_other _ _ _ _ hk]
    have hk1 : ¬ (pp * 256 + pc = key) := fun e => hk e.symm
    simp [hk1]

theorem bucket_usagechars (cs : List Nat) :
    ∀ (R : Nat → Option useageentry) (pp pc key : Nat), (∀ c ∈ cs, c < 256) →
    bucket (usagechars R pp pc cs) key = bucket R key ++ appendedto key (windows pp pc cs) := by
  induction cs with
  | nil => intro R pp pc key _; simp [usagechars, windows, appendedto_nil]
  | cons c cs ih =>
    intro R pp pc key h
    have hc : c % 256 = c := Nat.mod_eq_of_lt (h c (List.mem_cons_self _ _))
    simp only [usagechars, windows]
    rw [ih _ _ _ _ (fun x hx => h x (List.mem_cons_of_mem _ hx)), bucket_usagechar, hc,
      appendedto_cons key (pp * 256 + pc, c) (windows pc c cs), List.append_assoc]

/-- The appends of the loop are those of the padded sequence, by index. -/
theorem windows_eq_map (cs : List Nat) : ∀ (pp pc : Nat),
    windows pp pc cs = (List.range cs.length).map (fun i =>
      ((pp :: pc :: cs).getD i 0 * 256 + (pp :: pc :: cs).getD (i + 1) 0,
        (pp :: pc :: cs).getD (i + 2) 0)) := by
  induction cs with
  | nil => intro pp pc; rfl
  | cons c cs ih =>
    intro pp pc
    simp only [windows, List.length_cons]
    rw [List.range_succ_eq_map, List.map_cons, List.map_map, ih pc c]
    rfl

theorem windows_eq_appends (w : List Nat) : windows 32 32 (w ++ [32]) = appends w := by
  rw [windows_eq_map]
  unfold appends padded
  simp

theorem lt_of_islowercase {w : List Nat} (h : ∀ c ∈ w, islowercase c) :
    ∀ c ∈ w ++ [32], c < 256 := by
  intro c hc
  rcases List.mem_append.1 hc with h1 | h1
  · have := h c h1
    unfold islowercase at this
    omega
  · rw [List.mem_singleton.1 h1]; decide

theorem isCString_of_islowercase {w : List Nat} (h : ∀ c ∈ w, islowercase c) :
    isCString w := by
  intro c hc
  have := h c hc
  unfold islowercase at this
  omega

/-- C13. Bigram construction for one accepted word: for an accepted word `w = c1 .. cL`
of lower-case letters and the padded sequence `p = [space, space, c1, .., cL, space]`,
`makeusagerules` appends, for `i = 0 .. L` in this order, the character `p[i+2]` to the
end of the bucket keyed `(p[i], p[i+1])`: every bucket is its former content followed by
the characters that these `L + 1` appends give it, so nothing is reordered or removed and
no other bucket changes. -/
theorem bigram_construction (srcwordlen : Nat) (w : List Nat)
    (R R1 : Nat → Option useageentry) (d d1 : dictionary)
    (hw : ∀ c ∈ w, islowercase c)
    (hlen : srcwordlen ≤ w.length) (hnew : dictentry d w = none)
    (hrun : makeusagerules srcwordlen [w] (R, d) = some (R1, d1)) :
    (∀ key, bucket R1 key = bucket R key ++ appendedto key (appends w)) ∧
    (appends w).length = w.length + 1 ∧
    addtodict d w = some d1 := by
  simp only [makeusagerules, if_pos hlen, hnew] at hrun
  cases ha : addtodict d w with
  | none => rw [ha] at hrun; cases hrun
  | some d2 =>
    rw [ha] at hrun
    simp only at hrun
    split at hrun
    · cases hrun
    · simp only [Option.some.injEq, Prod.mk.injEq] at hrun
      obtain ⟨e1, e2⟩ := hrun
      subst e1 e2
      refine ⟨fun key => ?_, by simp [appends], rfl⟩
      rw [bucket_usagechars _ _ _ _ _ (lt_of_islowercase hw), windows_eq_appends]

/-- The word "aaaaa" on the empty table: the bucket of (space, space) holds "a", the
bucket of (space, a) holds "a", the bucket of (a, a) holds a, a, a and the space. -/
theorem bigram_construction_witness :
    makeusagerules 5 [[97, 97, 97, 97, 97]] (norules, emptydict)
      = some (aaaaatrained.1, aaaaatrained.2) ∧
    bucket aaaaatrained.1 (32 * 256 + 32) = [97] ∧
    bucket aaaaatrained.1 (32 * 256 + 97) = [97] ∧
    bucket aaaaatrained.1 (97 * 256 + 97) = [97, 97, 97, 32] ∧
    ∀ key, bucket aaaaatrained.1 key
      = bucket norules key ++ appendedto key (appends [97, 97, 97, 97, 97]) :=
  ⟨eq_some_getD _ (norules, emptydict) (by decide!), by decide!, by decide!, by decide!,
    (bigram_construction 5 [97, 97, 97, 97, 97] norules aaaaatrained.1 emptydict
      aaaaatrained.2 (by decide) (by decide) (by decide)
      (eq_some_getD _ (norules, emptydict) (by decide!))).1⟩

/-! ## Repeated and short tokens -/

/-- Two calls of `makeusagerules` in a row, as for two `-t` options, are one call on the
tokens of both texts. -/
theorem makeusagerules_append (srcwordlen : Nat) (ts1 ts2 : List (List Nat)) :
    ∀ st : (Nat → Option useageentry) × dictionary,
    makeusagerules srcwordlen (ts1 ++ ts2) st
      = (makeusagerules srcwordlen ts1 st).bind (makeusagerules srcwordlen ts2) := by
  induction ts1 with
  | nil => intro st; rfl
  | cons w ts ih =>
    intro st
    obtain ⟨R, d⟩ := st
    simp only [List.cons_append, makeusagerules]
    split
    · cases dictentry d w with
      | some i => exact ih _
      | none =>
        simp only
        cases addtodict d w with
        | none => rfl
        | some d2 =>
          simp only
          split
          · rfl
          · exact ih _
    · exact ih _

theorem makeusagerules_eq_trainwords (srcwordlen : Nat) (ts : List (List Nat)) :
    ∀ (R : Nat → Option useageentry) (d : dictionary) (L : List (List Nat)),
    DictRep d L → (∀ w ∈ ts, isCString w) →
    makeusagerules srcwordlen ts (R, d) = trainwords (acceptedwords srcwordlen L ts) (R, d) := by
  induction ts with
  | nil => intro R d L _ _; rfl
  | cons w ts ih =>
    intro R d L hr hts
    have hw := hts w (List.mem_cons_self _ _)
    have hts1 : ∀ x ∈ ts, isCString x := fun x hx => hts x (List.mem_cons_of_mem _ hx)
    simp only [makeusagerules, acceptedwords]
    by_cases hlen : srcwordlen ≤ w.length
    · rw [if_pos hlen]
      cases he : dictentry d w with
      | some i =>
        have hmem : w ∈ L := List.mem_iff_getElem?.2 ⟨i, (dictentry_of_rep hr hw).1 i he⟩
        rw [if_neg (fun h => h.2 hmem)]
        exact ih R d L hr hts1
      | none =>
        have hnew : w ∉ L := (dictentry_of_rep hr hw).2 he
        rw [if_pos ⟨hlen, hnew⟩]
        simp only [trainwords, trainword]
        cases ha : addtodict d w with
        | none => rfl
        | some d2 =>
          simp only
          have hr2 := rep_addtodict hr hw ha
          have hins : insertword L w = L ++ [w] := by unfold insertword; rw [if_neg hnew]
          rw [hins] at hr2
          split
          · rfl
          · exact ih _ d2 _ hr2 hts1
    · rw [if_neg hlen, if_neg (fun h => hlen h.1)]
      exact ih R d L hr hts1

theorem acceptedwords_filter_ne (srcwordlen : Nat) (w : List Nat) (xs : List (List Nat)) :
    ∀ L : List (List Nat), (w.length < srcwordlen ∨ w ∈ L) →
    acceptedwords srcwordlen L (xs.filter (fun x => decide (x ≠ w)))
      = acceptedwords srcwordlen L xs := by
  induction xs with
  | nil => intro L _; rfl
  | cons x xs ih =>
    intro L h
    by_cases hx : x = w
    · subst hx
      rw [List.filter_cons_of_neg (by simp)]
      simp only [acceptedwords]
      have hrej : ¬ (srcwordlen ≤ x.length ∧ x ∉ L) := by
        rcases h with h | h
        · exact fun c => by omega
        · exact fun c => c.2 h
      rw [if_neg hrej]
      exact ih L h
    · rw [List.filter_cons_of_pos (by simpa using hx)]
      simp only [acceptedwords]
      split
      · rw [ih (L ++ [x]) (h.imp id (fun hm => List.mem_append_left _ hm))]
      · exact ih L h

theorem acceptedwords_firstOccurrences (srcwordlen : Nat) (ts : List (List Nat)) :
    ∀ L : List (List Nat),
    acceptedwords srcwordlen L (firstOccurrences ts) = acceptedwords srcwordlen L ts := by
  induction ts with
  | nil => intro L; rfl
  | cons w ts ih =>
    intro L
    simp only [firstOccurrences, acceptedwords]
    split
    · rw [acceptedwords_filter_ne srcwordlen w _ _
        (Or.inr (List.mem_append_right _ (List.mem_singleton_self w))), ih]
    · rename_i hrej
      have hskip : w.length < srcwordlen ∨ w ∈ L := by
        by_cases h1 : srcwordlen ≤ w.length
        · right
          by_contra h2
          exact hrej ⟨h1, h2⟩
        · left; omega
      rw [acceptedwords_filter_ne srcwordlen w _ _ hskip, ih]

theorem acceptedwords_filter_long (srcwordlen : Nat) (ts : List (List Nat)) :
    ∀ L : List (List Nat),
    acceptedwords srcwordlen L (ts.filter (fun w => decide (srcwordlen ≤ w.length)))
      = acceptedwords srcwordlen L ts := by
  induction ts with
  | nil => intro L; rfl
  | cons w ts ih =>
    intro L
    by_cases hlen : srcwordlen ≤ w.length
    · rw [List.filter_cons_of_pos (by simpa using hlen)]
      simp only [acceptedwords]
      split
      · rw [ih]
      · exact ih L
    · rw [List.filter_cons_of_neg (by simpa using hlen)]
      simp only [acceptedwords]
      rw [if_neg (fun h => hlen h.1)]
      exact ih L

theorem acceptedwords_subset (srcwordlen : Nat) (ts : List (List Nat)) :
    ∀ (L : List (List Nat)) (w : List Nat), w ∈ acceptedwords srcwordlen L ts →
    w ∈ ts ∧ srcwordlen ≤ w.length := by
  induction ts with
  | nil => intro L w h; cases h
  | cons x ts ih =>
    intro L w h
    simp only [acceptedwords] at h
    split at h
    · rename_i hacc
      rcases List.mem_cons.1 h with h1 | h1
      · rw [h1]; exact ⟨List.mem_cons_self _ _, hacc.1⟩
      · exact ⟨List.mem_cons_of_mem _ (ih _ w h1).1, (ih _ w h1).2⟩
    · exact ⟨List.mem_cons_of_mem _ (ih _ w h).1, (ih _ w h).2⟩

/-- C14. Repeated words do not bias the model: for every token sequence `ts`, on a
training dictionary built by `addtodict` calls, `makeusagerules` gives the same table of
buckets and the same training dictionary on `ts` as on `ts` with every later repetition
of a word removed, and as on `ts` without the tokens shorter than `srcwordlen`; a
sequence of too-short tokens only leaves the table and the dictionary as they were, so
from the empty table the model stays empty. -/
theorem repeated_words_no_bias (srcwordlen : Nat) (ts ls : List (List Nat))
    (R : Nat → Option useageentry) (d : dictionary)
    (hls : ∀ x ∈ ls, isCString x) (hd : addwords emptydict ls = some d)
    (hts : ∀ w ∈ ts, isCString w) :
    makeusagerules srcwordlen ts (R, d)
      = makeusagerules srcwordlen (firstOccurrences ts) (R, d) ∧
    makeusagerules srcwordlen ts (R, d)
      = makeusagerules srcwordlen
          (ts.filter (fun w => decide (srcwordlen ≤ w.length))) (R, d) ∧
    ((∀ w ∈ ts, w.length < srcwordlen) →
      makeusagerules srcwordlen ts (R, d) = some (R, d) ∧
      makeusagerules srcwordlen ts (norules, emptydict) = some (norules, emptydict)) := by
  have hr := rep_of_addwords hls hd
  have h1 : ∀ w ∈ firstOccurrences ts, isCString w :=
    fun w hw => hts w ((mem_firstOccurrences ts w).1 hw)
  have h2 : ∀ w ∈ ts.filter (fun w => decide (srcwordlen ≤ w.length)), isCString w :=
    fun w hw => hts w (List.mem_filter.1 hw).1
  refine ⟨?_, ?_, ?_⟩
  · rw [makeusagerules_eq_trainwords srcwordlen ts R d _ hr hts,
      makeusagerules_eq_trainwords srcwordlen _ R d _ hr h1, acceptedwords_firstOccurrences]
  · rw [makeusagerules_eq_trainwords srcwordlen ts R d _ hr hts,
      makeusagerules_eq_trainwords srcwordlen _ R d _ hr h2, acceptedwords_filter_long]
  · intro hshort
    have hnone : ∀ L, acceptedwords srcwordlen L ts = [] := by
      intro L
      cases hacc : acceptedwords srcwordlen L ts with
      | nil => rfl
      | cons x xs =>
        have hx := acceptedwords_subset srcwordlen ts L x (by rw [hacc]; exact List.mem_cons_self _ _)
        have := hshort x hx.1
        omega
    constructor
    · rw [makeusagerules_eq_trainwords srcwordlen ts R d _ hr hts, hnone]
      rfl
    · rw [makeusagerules_eq_trainwords srcwordlen ts norules emptydict [] rep_emptydict hts,
        hnone]
      rfl

/-- The tokens cat, dog, dog, bird give the state that cat, dog, bird give. -/
theorem repeated_words_no_bias_witness :
    addwords emptydict [] = some emptydict ∧
    makeusagerules 3 [[99, 97, 116], [100, 111, 103], [100, 111, 103], [98, 105, 114, 100]]
        (norules, emptydict)
      = makeusagerules 3 (firstOccurrences
          [[99, 97, 116], [100, 111, 103], [100, 111, 103], [98, 105, 114, 100]])
        (norules, emptydict) ∧
    firstOccurrences [[99, 97, 116], [100, 111, 103], [100, 111, 103], [98, 105, 114, 100]]
      = [[99, 97, 116], [100, 111, 103], [98, 105, 114, 100]] :=
  ⟨rfl,
    (repeated_words_no_bias 3
      [[99, 97, 116], [100, 111, 103], [100, 111, 103], [98, 105, 114, 100]] []
      norules emptydict (by decide) rfl (by decide)).1,
    by decide⟩

/-! ## Generation that does not return -/

theorem gibberletters_norules (s : gibberstate) :
    gibberletters norules STRINGBUFSIZE s [] = some ([], (nextgibberchar norules s).2) := by
  show gibberletters norules (1024 + 1) s [] = _
  simp [gibberletters, nextgibberchar, norules, isalpha]

theorem nextgibberword_norules (fuel : Nat) :
    ∀ s : gibberstate, nextgibberword norules fuel s = none := by
  induction fuel with
  | zero => intro s; rfl
  | succ fuel ih =>
    intro s
    simp only [nextgibberword, gibberletters_norules, List.length_nil, if_true]
    exact ih _

/-- C15 on the empty model: `nextgibberchar` does fall back to the sentinel 42 at once, but
then every round of the `do .. while` of `nextgibberword` ends with the empty candidate
and the loop goes on: for no number of rounds does `nextgibberword` return, and neither
does `makegibberdict`. -/
theorem empty_model_never_returns (languagedict exclusiondict gibberdict : dictionary)
    (gibberlimit gibberminlen gibbermaxlen : Int) (fuel : Nat) (s : gibberstate) :
    (nextgibberchar norules s).1 = 42 ∧
    gibberletters norules STRINGBUFSIZE { s with gibbercharpairhash := 32 * 256 + 32 } []
      = some ([], (nextgibberchar norules
          { s with gibbercharpairhash := 32 * 256 + 32 }).2) ∧
    nextgibberword norules fuel s = none ∧
    makegibberdict norules languagedict exclusiondict gibberlimit gibberminlen gibbermaxlen
      fuel gibberdict s = none := by
  refine ⟨rfl, gibberletters_norules _, nextgibberword_norules fuel s, ?_⟩
  cases fuel with
  | zero => rfl
  | succ fuel =>
    simp only [makegibberdict, nextcandidate, nextgibberword_norules]

theorem nextcandidate_none_of_lt (useagerules : Nat → Option useageentry)
    (languagedict exclusiondict : dictionary) (gibberminlen gibbermaxlen : Int)
    (h : toSizeT gibbermaxlen < toSizeT gibberminlen) (fuel : Nat) :
    ∀ s : gibberstate,
    nextcandidate useagerules languagedict exclusiondict gibberminlen gibbermaxlen fuel s
      = none := by
  induction fuel with
  | zero => intro s; rfl
  | succ fuel ih =>
    intro s
    simp only [nextcandidate]
    split
    · rfl
    · rename_i w s1 _
      have hk : keepcandidate languagedict exclusiondict gibberminlen gibbermaxlen w
          = false := by
        cases hk : keepcandidate languagedict exclusiondict gibberminlen gibbermaxlen w with
        | false => rfl
        | true =>
          obtain ⟨k1, k2, _⟩ := (keepcandidate_iff _ _ _ _ _).1 hk
          omega
      rw [hk]
      exact ih s1

/-- C16 on the options of the claim: `-n 20` followed by `-m 3` leaves the minimum 20
and the maximum `DEFAULT_GIBBERMAXLEN = 8` (the maximum 3 is below the minimum and is
replaced by the default, which is below the minimum as well); with these bounds
`makegibberdict` keeps no candidate and does not return, whatever the usage rules. -/
theorem degenerate_bounds_loop (useagerules : Nat → Option useageentry)
    (languagedict exclusiondict gibberdict : dictionary) (gibberlimit : Int) (fuel : Nat)
    (s : gibberstate) :
    (optionM 3 (optionN 20 defaultsettings)).gibberminlen = 20 ∧
    (optionM 3 (optionN 20 defaultsettings)).gibbermaxlen = 8 ∧
    ¬ ((optionM 3 (optionN 20 defaultsettings)).gibberminlen
        ≤ (optionM 3 (optionN 20 defaultsettings)).gibbermaxlen) ∧
    makegibberdict useagerules languagedict exclusiondict gibberlimit
      (toCInt (optionM 3 (optionN 20 defaultsettings)).gibberminlen)
      (toCInt (optionM 3 (optionN 20 defaultsettings)).gibbermaxlen)
      fuel gibberdict s = none := by
  have h1 : (optionM 3 (optionN 20 defaultsettings)).gibberminlen = 20 := by decide
  have h2 : (optionM 3 (optionN 20 defaultsettings)).gibbermaxlen = 8 := by decide
  refine ⟨h1, h2, by rw [h1, h2]; decide, ?_⟩
  rw [h1, h2]
  cases fuel with
  | zero => rfl
  | succ fuel =>
    simp only [makegibberdict]
    rw [nextcandidate_none_of_lt _ _ _ _ _ (by decide)]

/-! ## The window key -/

/-- C18. Rolling window key: for a window key `a * 256 + b` with `b < 256` and a drawn
character `c < 256`, the update `(key * 256 + c) mod 65536` of `nextgibberchar` gives
`b * 256 + c`, the key `prevprev * 256 + prevchar` under which `makeusagerules` files the
character that follows the pair `(b, c)`; and `nextgibberword` sets the key to
`32 * 256 + 32` before every candidate. -/
theorem rolling_window_key (useagerules : Nat → Option useageentry) (s : gibberstate)
    (a b : Nat) (hb : b < 256) (hs : s.gibbercharpairhash = a * 256 + b)
    (hc : (nextgibberchar useagerules s).1 < 256) :
    (nextgibberchar useagerules s).2.gibbercharpairhash
      = b * 256 + (nextgibberchar useagerules s).1 ∧
    (∀ (R : Nat → Option useageentry) (x : Nat),
      bucket (usagechar R b (nextgibberchar useagerules s).1 x)
          (b * 256 + (nextgibberchar useagerules s).1)
        = bucket R (b * 256 + (nextgibberchar useagerules s).1) ++ [x % 256]) ∧
    (∀ (fuel : Nat) (s0 : gibberstate),
      nextgibberword useagerules (fuel + 1) s0 =
        match gibberletters useagerules STRINGBUFSIZE
            { s0 with gibbercharpairhash := 32 * 256 + 32 } [] with
        | none => none
        | some (w, s1) =>
          if w.length = 0 then nextgibberword useagerules fuel s1 else some (w, s1)) := by
  refine ⟨?_, ?_, fun fuel s0 => rfl⟩
  · show (s.gibbercharpairhash * 256 + (nextgibberchar useagerules s).1) % 65536 = _
    rw [hs]
    omega
  · intro R x
    rw [bucket_usagechar]
    simp [appendedto]

/-- The first draw after the training on "aaaaa": the key of (space, space) becomes the
key of (space, a). -/
theorem rolling_window_key_witness :
    (32 : Nat) < 256 ∧ seedstate.gibbercharpairhash = 32 * 256 + 32 ∧
    (nextgibberchar aaaaatrained.1 seedstate).1 = 97 ∧
    (nextgibberchar aaaaatrained.1 seedstate).2.gibbercharpairhash
      = 32 * 256 + (nextgibberchar aaaaatrained.1 seedstate).1 :=
  ⟨by decide, rfl, by decide!,
    (rolling_window_key aaaaatrained.1 seedstate 32 32 (by decide) rfl (by decide!)).1⟩

/-! ## The trained model -/

theorem rulesok_norules : rulesok norules := by
  intro key e h
  cases h

theorem rulesok_usagechar {R : Nat → Option useageentry} (h : rulesok R) (pp pc c : Nat) :
    rulesok (usagechar R pp pc c) := by
  intro key e he
  unfold usagechar at he
  by_cases hk : key = pp * 256 + pc
  · subst hk
    rw [store_same] at he
    cases he
    exact Nat.le_add_left 1 _
  · rw [store_other _ _ _ _ hk] at he
    exact h key e he

theorem rulesok_usagechars (cs : List Nat) : ∀ (R : Nat → Option useageentry) (pp pc : Nat),
    rulesok R → rulesok (usagechars R pp pc cs) := by
  induction cs with
  | nil => intro R pp pc h; exact h
  | cons c cs ih =>
    intro R pp pc h
    exact ih _ _ _ (rulesok_usagechar h pp pc c)

theorem mem_allappends {p : Nat × Nat} (ws : List (List Nat)) :
    p ∈ allappends ws ↔ ∃ w ∈ ws, p ∈ appends w := by
  induction ws with
  | nil => simp [allappends]
  | cons w ws ih =>
    simp only [allappends, List.mem_append, ih, List.mem_cons]
    constructor
    · rintro (h | ⟨x, hx, hp⟩)
      · exact ⟨w, Or.inl rfl, h⟩
      · exact ⟨x, Or.inr hx, hp⟩
    · rintro ⟨x, hx | hx, hp⟩
      · left; rw [← hx]; exact hp
      · exact Or.inr ⟨x, hx, hp⟩

theorem trainword_eq {R : Nat → Option useageentry} {d : dictionary} {w : List Nat}
    {st1 : (Nat → Option useageentry) × dictionary} (h : trainword (R, d) w = some st1) :
    ∃ d2, addtodict d w = some d2 ∧ st1 = (usagechars R 32 32 (w ++ [32]), d2) := by
  unfold trainword at h
  cases ha : addtodict d w with
  | none => rw [ha] at h; cases h
  | some d2 =>
    rw [ha] at h
    simp only at h
    split at h
    · cases h
    · exact ⟨d2, rfl, (Option.some.inj h).symm⟩

/-- The table after the training on the accepted words `ws`: every bucket is its former
content followed by what the appends of the words give it, and no chain is empty. -/
theorem trainwords_buckets (ws : List (List Nat)) :
    ∀ (R R1 : Nat → Option useageentry) (d d1 : dictionary),
    (∀ w ∈ ws, ∀ c ∈ w, islowercase c) → trainwords ws (R, d) = some (R1, d1) →
    (∀ key, bucket R1 key = bucket R key ++ appendedto key (allappends ws)) ∧
    (rulesok R → rulesok R1) ∧ (ws = [] → R1 = R) := by
  induction ws with
  | nil =>
    intro R R1 d d1 _ h
    simp only [trainwords, Option.some.injEq, Prod.mk.injEq] at h
    rw [← h.1]
    exact ⟨fun key => by simp [allappends, appendedto_nil], id, fun _ => rfl⟩
  | cons w ws ih =>
    intro R R1 d d1 hws h
    simp only [trainwords] at h
    cases htw : trainword (R, d) w with
    | none => rw [htw] at h; cases h
    | some st1 =>
      rw [htw] at h
      obtain ⟨d2, _, e⟩ := trainword_eq htw
      subst e
      obtain ⟨h1, h2, _⟩ := ih _ R1 d2 d1 (fun x hx => hws x (List.mem_cons_of_mem _ hx)) h
      refine ⟨fun key => ?_, fun hok => h2 (rulesok_usagechars _ _ _ _ hok),
        fun e => by cases e⟩
      rw [h1 key, bucket_usagechars _ _ _ _ _
        (lt_of_islowercase (hws w (List.mem_cons_self _ _))), windows_eq_appends]
      simp only [allappends, appendedto_append, List.append_assoc]

theorem mem_windows_char (cs : List Nat) : ∀ (pp pc key c : Nat),
    (key, c) ∈ windows pp pc cs → c ∈ cs := by
  induction cs with
  | nil => intro pp pc key c h; cases h
  | cons x xs ih =>
    intro pp pc key c h
    simp only [windows, List.mem_cons, Prod.mk.injEq] at h
    rcases h with h | h
    · rw [h.2]; exact List.mem_cons_self _ _
    · exact List.mem_cons_of_mem _ (ih _ _ _ _ h)

/-- In the appends of a word, a letter that goes to the bucket `key` is followed by an
append to the bucket of the next window. -/
theorem windows_closure (cs : List Nat) : ∀ (pp pc key c : Nat), pc < 256 →
    (∀ x ∈ cs, x < 256) → (key, c) ∈ windows pp pc (cs ++ [32]) → isalpha c = true →
    ∃ c1, ((key * 256 + c) % 65536, c1) ∈ windows pp pc (cs ++ [32]) := by
  induction cs with
  | nil =>
    intro pp pc key c _ _ h hc
    simp only [List.nil_append, windows, List.mem_singleton, Prod.mk.injEq] at h
    rw [h.2] at hc
    exact absurd hc (by decide)
  | cons x xs ih =>
    intro pp pc key c hpc hcs h hc
    have hx : x < 256 := hcs x (List.mem_cons_self _ _)
    simp only [List.cons_append, windows, List.mem_cons, Prod.mk.injEq] at h ⊢
    rcases h with ⟨hk, hcx⟩ | h
    · subst hk hcx
      have hkey : ((pp * 256 + pc) * 256 + c) % 65536 = pc * 256 + c := by omega
      rw [hkey]
      cases xs with
      | nil => exact ⟨32, Or.inr (by simp [windows])⟩
      | cons y ys => exact ⟨y, Or.inr (by simp [windows])⟩
    · obtain ⟨c1, h1⟩ := ih pc x key c hx (fun y hy => hcs y (List.mem_cons_of_mem _ hy)) h hc
      exact ⟨c1, Or.inr h1⟩

theorem mem_bucket_exists {R : Nat → Option useageentry} {key c : Nat}
    (h : c ∈ bucket R key) : R key ≠ none := by
  intro e
  unfold bucket at h
  rw [e] at h
  cases h

/-- The model that `makeusagerules` builds from the empty table on tokens of lower-case
letters: the buckets are the appends of the accepted words, no chain is empty, the
elements are letters or the space, and a letter in a bucket leads to a bucket. -/
theorem makeusagerules_model (srcwordlen : Nat) (ts : List (List Nat))
    (R : Nat → Option useageentry) (d : dictionary)
    (hts : ∀ w ∈ ts, ∀ c ∈ w, islowercase c)
    (hrun : makeusagerules srcwordlen ts (norules, emptydict) = some (R, d)) :
    rulesok R ∧
    (∀ key c, c ∈ bucket R key ↔
      ∃ w ∈ acceptedwords srcwordlen [] ts, (key, c) ∈ appends w) ∧
    (∀ key c, c ∈ bucket R key → isalpha c = true ∨ c = 32) ∧
    (∀ key c, c ∈ bucket R key → isalpha c = true → R ((key * 256 + c) % 65536) ≠ none) ∧
    ((∃ key, R key ≠ none) → R (32 * 256 + 32) ≠ none) := by
  have hcs : ∀ w ∈ ts, isCString w := fun w hw => isCString_of_islowercase (hts w hw)
  rw [makeusagerules_eq_trainwords srcwordlen ts norules emptydict [] rep_emptydict hcs]
    at hrun
  have hacc : ∀ w ∈ acceptedwords srcwordlen [] ts, ∀ c ∈ w, islowercase c :=
    fun w hw => hts w (acceptedwords_subset srcwordlen ts [] w hw).1
  obtain ⟨h1, h2, h3⟩ := trainwords_buckets _ _ _ _ _ hacc hrun
  have hmem : ∀ key c, c ∈ bucket R key ↔
      ∃ w ∈ acceptedwords srcwordlen [] ts, (key, c) ∈ appends w := by
    intro key c
    rw [h1 key]
    have : bucket norules key = [] := rfl
    rw [this, List.nil_append, mem_appendedto, mem_allappends]
  refine ⟨h2 rulesok_norules, hmem, ?_, ?_, ?_⟩
  · intro key c hc
    obtain ⟨w, hw, hp⟩ := (hmem key c).1 hc
    rw [← windows_eq_appends] at hp
    rcases List.mem_append.1 (mem_windows_char _ _ _ _ _ hp) with h | h
    · exact Or.inl (isalpha_of_islowercase (hacc w hw c h))
    · exact Or.inr (List.mem_singleton.1 h)
  · intro key c hc hal
    obtain ⟨w, hw, hp⟩ := (hmem key c).1 hc
    rw [← windows_eq_appends] at hp
    obtain ⟨c1, hc1⟩ := windows_closure w 32 32 key c (by decide)
      (fun x hx => lt_of_islowercase (hacc w hw) x (List.mem_append_left _ hx)) hp hal
    rw [windows_eq_appends] at hc1
    exact mem_bucket_exists ((hmem _ c1).2 ⟨w, hw, hc1⟩)
  · rintro ⟨key, hkey⟩
    cases hws : acceptedwords srcwordlen [] ts with
    | nil =>
      rw [h3 hws] at hkey
      exact absurd rfl hkey
    | cons w ws =>
      have hw : w ∈ acceptedwords srcwordlen [] ts := by rw [hws]; exact List.mem_cons_self _ _
      have hp : (32 * 256 + 32, (w ++ [32]).head (by simp)) ∈ appends w := by
        rw [← windows_eq_appends]
        cases w with
        | nil => simp [windows]
        | cons x xs => simp [windows]
      exact mem_bucket_exists ((hmem _ _).2 ⟨w, hw, hp⟩)

/-! ## Candidates and the usage rules -/

theorem chainindex_bound (r n : Nat) (hr : r < 32768) (hn : 1 ≤ n) : chainindex r n < n := by
  rw [chainindex_eq]
  have h1 : n / 32768 * r ≤ n / 32768 * 32767 := Nat.mul_le_mul_left _ (by omega)
  by_cases h0 : n % 32768 = 0
  · rw [h0]
    simp only [Nat.mul_zero, Nat.zero_div, Nat.zero_add]
    omega
  · have h3 : r * (n % 32768) < 32768 * (n % 32768) :=
      Nat.mul_lt_mul_of_pos_right hr (by omega)
    have h4 : r * (n % 32768) / 32768 < n % 32768 := Nat.div_lt_of_lt_mul h3
    omega

theorem nextgibberchar_rand_lt (R : Nat → Option useageentry) (s : gibberstate) :
    (nextgibberchar R s).2.gibberrandnum < 32768 :=
  Nat.mod_lt _ (by decide)

/-- A character drawn from an existing chain is an element of the bucket. -/
theorem nextgibberchar_mem {R : Nat → Option useageentry} (hok : rulesok R)
    {s : gibberstate} (hs : s.gibberrandnum < 32768) (hb : R s.gibbercharpairhash ≠ none) :
    (nextgibberchar R s).1 ∈ bucket R s.gibbercharpairhash := by
  unfold nextgibberchar bucket
  cases he : R s.gibbercharpairhash with
  | none => exact absurd he hb
  | some e =>
    simp only
    exact List.mem_map.2 ⟨chainindex s.gibberrandnum e.nchars,
      List.mem_range.2 (chainindex_bound _ _ hs (hok _ e he)), rfl⟩

theorem nextgibberchar_exists_of_isalpha {R : Nat → Option useageentry} {s : gibberstate}
    (h : isalpha (nextgibberchar R s).1 = true) : R s.gibbercharpairhash ≠ none := by
  intro e
  unfold nextgibberchar at h
  rw [e] at h
  simp [isalpha] at h

/-- The letters of a candidate are drawn from the buckets of the windows before them. -/
theorem gibberletters_follows {R : Nat → Option useageentry} (hok : rulesok R) :
    ∀ (n : Nat) (s : gibberstate) (acc w : List Nat) (s1 : gibberstate),
    s.gibberrandnum < 32768 → gibberletters R n s acc = some (w, s1) →
    ∃ rest, w = acc ++ rest ∧ follows R s.gibbercharpairhash rest ∧
      s1.gibberrandnum < 32768 := by
  intro n
  induction n with
  | zero => intro s acc w s1 _ h; simp [gibberletters] at h
  | succ n ih =>
    intro s acc w s1 hs h
    simp only [gibberletters] at h
    split at h
    · rename_i hc
      obtain ⟨rest, h1, h2, h3⟩ := ih _ _ w s1 (nextgibberchar_rand_lt R s) h
      refine ⟨(nextgibberchar R s).1 :: rest, by rw [h1, List.append_assoc]; rfl, ?_, h3⟩
      exact ⟨nextgibberchar_mem hok hs (nextgibberchar_exists_of_isalpha hc), h2⟩
    · simp only [Option.some.injEq, Prod.mk.injEq] at h
      refine ⟨[], by rw [← h.1]; simp, trivial, ?_⟩
      rw [← h.2]
      exact nextgibberchar_rand_lt R s

theorem nextgibberword_follows {R : Nat → Option useageentry} (hok : rulesok R) :
    ∀ (fuel : Nat) (s : gibberstate) (w : List Nat) (s1 : gibberstate),
    s.gibberrandnum < 32768 → nextgibberword R fuel s = some (w, s1) →
    follows R (32 * 256 + 32) w := by
  intro fuel
  induction fuel with
  | zero => intro s w s1 _ h; simp [nextgibberword] at h
  | succ fuel ih =>
    intro s w s1 hs h
    simp only [nextgibberword] at h
    split at h
    · cases h
    · rename_i w0 s0 hl
      obtain ⟨rest, h1, h2, h3⟩ := gibberletters_follows hok _
        { s with gibbercharpairhash := 32 * 256 + 32 } _ _ _ hs hl
      split at h
      · exact ih _ _ _ h3 h
      · simp only [Option.some.injEq, Prod.mk.injEq] at h
        rw [← h.1, h1]
        exact h2

theorem getD_lt_of_forall {l : List Nat} (h : ∀ c ∈ l, c < 256) (k : Nat) :
    l.getD k 0 < 256 := by
  by_cases hk : k < l.length
  · rw [List.getD_eq_getElem _ _ hk]
    exact h _ (List.getElem_mem hk)
  · rw [List.getD_eq_default _ _ (by omega)]
    decide

/-- A word that follows the rules from the window `(a, b)`, by index in the sequence
`a, b, c1, .., cL`. -/
theorem follows_index {R : Nat → Option useageentry} (w : List Nat) :
    ∀ (a b : Nat), b < 256 → (∀ c ∈ w, c < 256) → follows R (a * 256 + b) w →
    ∀ i, i < w.length →
      (a :: b :: w).getD (i + 2) 0 ∈
        bucket R ((a :: b :: w).getD i 0 * 256 + (a :: b :: w).getD (i + 1) 0) := by
  induction w with
  | nil => intro a b _ _ _ i hi; cases hi
  | cons c cs ih =>
    intro a b hb hw hf i hi
    obtain ⟨hf1, hf2⟩ := hf
    have hc : c < 256 := hw c (List.mem_cons_self _ _)
    cases i with
    | zero => exact hf1
    | succ i =>
      have hkey : (a * 256 + b) * 256 + c = a * 65536 + (b * 256 + c) := by omega
      rw [hkey, Nat.mul_add_mod_of_lt (by omega)] at hf2
      have := ih b c hc (fun x hx => hw x (List.mem_cons_of_mem _ hx)) hf2 i
        (by simpa using hi)
      simpa using this

theorem lt_of_isalpha {w : List Nat} (h : ∀ c ∈ w, isalpha c = true) : ∀ c ∈ w, c < 256 := by
  intro c hc
  have := (isCString_of_isalpha h) c hc
  omega

/-- C17. Generated words follow the training transitions: for a model that
`makeusagerules` built from tokens of lower-case letters and a word `w = c1 .. cL` that
`nextgibberword` returns, with `p = [space, space, c1, .., cL]`, every character `p[i+2]`
(`0 ≤ i < L`) is an element of the bucket keyed `(p[i], p[i+1])`; hence the window
`p[i], p[i+1], p[i+2]` occurs in the padded form of a training word.  The generator is
in a state with `gibberrandnum < 32768`, as the seed and every state after a draw are. -/
theorem generated_words_follow (srcwordlen : Nat) (ts : List (List Nat))
    (R : Nat → Option useageentry) (d : dictionary) (fuel : Nat) (s s1 : gibberstate)
    (w : List Nat)
    (hts : ∀ t ∈ ts, ∀ c ∈ t, islowercase c)
    (hrun : makeusagerules srcwordlen ts (norules, emptydict) = some (R, d))
    (hs : s.gibberrandnum < 32768)
    (hw : nextgibberword R fuel s = some (w, s1)) :
    (∀ i, i < w.length →
      ([32, 32] ++ w).getD (i + 2) 0 ∈
        bucket R (([32, 32] ++ w).getD i 0 * 256 + ([32, 32] ++ w).getD (i + 1) 0)) ∧
    (∀ i, i < w.length → ∃ t ∈ ts, srcwordlen ≤ t.length ∧ ∃ j, j ≤ t.length ∧
      (padded t).getD j 0 = ([32, 32] ++ w).getD i 0 ∧
      (padded t).getD (j + 1) 0 = ([32, 32] ++ w).getD (i + 1) 0 ∧
      (padded t).getD (j + 2) 0 = ([32, 32] ++ w).getD (i + 2) 0) := by
  obtain ⟨hok, hmem, _, _, _⟩ := makeusagerules_model srcwordlen ts R d hts hrun
  have hf := nextgibberword_follows hok fuel s w s1 hs hw
  have hlt := lt_of_isalpha (nextgibberword_letters R fuel s w s1 hw).2
  have h1 : ∀ i, i < w.length →
      ([32, 32] ++ w).getD (i + 2) 0 ∈
        bucket R (([32, 32] ++ w).getD i 0 * 256 + ([32, 32] ++ w).getD (i + 1) 0) :=
    follows_index w 32 32 (by decide) hlt hf
  refine ⟨h1, fun i hi => ?_⟩
  obtain ⟨t, ht, hp⟩ := (hmem _ _).1 (h1 i hi)
  obtain ⟨ht1, ht2⟩ := acceptedwords_subset srcwordlen ts [] t ht
  unfold appends at hp
  obtain ⟨j, hj, e⟩ := List.mem_map.1 hp
  simp only [Prod.mk.injEq] at e
  have hj1 := List.mem_range.1 hj
  have hpad : ∀ c ∈ padded t, c < 256 := by
    intro c hc
    unfold padded at hc
    simp only [List.mem_append, List.mem_cons, List.mem_singleton, List.not_mem_nil,
      or_false] at hc
    rcases hc with (hc | hc) | hc
    · omega
    · have := hts t ht1 c hc
      unfold islowercase at this
      omega
    · omega
  have hgen : ∀ c ∈ [32, 32] ++ w, c < 256 := by
    intro c hc
    simp only [List.mem_append, List.mem_cons, List.not_mem_nil, or_false] at hc
    rcases hc with hc | hc
    · omega
    · exact hlt c hc
  have b1 := getD_lt_of_forall hpad j
  have b2 := getD_lt_of_forall hpad (j + 1)
  have b3 := getD_lt_of_forall hgen i
  have b4 := getD_lt_of_forall hgen (i + 1)
  exact ⟨t, ht1, ht2, j, by omega, by omega, by omega, e.2⟩

/-- The first candidate after the training on "aaaaa" is "aaaaa" itself: each of its
letters lies in the bucket of the two characters before it. -/
theorem generated_words_follow_witness :
    makeusagerules 5 [[97, 97, 97, 97, 97]] (norules, emptydict)
      = some (aaaaatrained.1, aaaaatrained.2) ∧
    nextgibberword aaaaatrained.1 1 seedstate = some (firstcandidate.1, firstcandidate.2) ∧
    firstcandidate.1 = [97, 97, 97, 97, 97] ∧
    ∀ i, i < firstcandidate.1.length →
      ([32, 32] ++ firstcandidate.1).getD (i + 2) 0 ∈
        bucket aaaaatrained.1 (([32, 32] ++ firstcandidate.1).getD i 0 * 256
          + ([32, 32] ++ firstcandidate.1).getD (i + 1) 0) :=
  ⟨eq_some_getD _ (norules, emptydict) (by decide!),
    eq_some_getD _ ([], seedstate) (by decide!), by decide!,
    (generated_words_follow 5 [[97, 97, 97, 97, 97]] aaaaatrained.1 aaaaatrained.2 1
      seedstate firstcandidate.2 firstcandidate.1 (by decide)
      (eq_some_getD _ (norules, emptydict) (by decide!)) (by decide)
      (eq_some_getD _ ([], seedstate) (by decide!))).1⟩

/-- The buffer position and the buffer capacity after the insert of a new word. -/
theorem addentry_capacity {words : dictwords} {table : Nat → Option dicthashchain}
    {L : List (List Nat)} (hrep : WordsRep words table L) {w : List Nat}
    (hw : isCString w) (hnew : w ∉ L) {c : dicthashchain}
    (hch : table (dhashcode w) = some c) :
    ∀ d1, addentry words table c w = some d1 →
      ∃ words1, d1.words = some words1 ∧
        words1.dwordbufpos = (words.dwordbufpos + (w.length + 1) + 1)
          - (words.dwordbufpos + (w.length + 1) + 1) % 2 ∧
        words1.dwordbufmax =
          (if words.dwordbufpos + w.length + 2 ≥ words.dwordbufmax then
            words.dwordbufmax + GROWDWORDBUF else words.dwordbufmax) ∧
        words.dwordbufpos + w.length + 1 ≤ words1.dwordbufmax := by
  have hr : DictRep { words := some words, hchain := table } L := hrep
  have he : dictentry { words := some words, hchain := table } w = none := by
    cases h : dictentry { words := some words, hchain := table } w with
    | none => rfl
    | some i =>
      exact absurd (List.mem_iff_getElem?.2 ⟨i, (dictentry_of_rep hr hw).1 i h⟩) hnew
  have h1 := hrep.chain_le _ c hch
  have h2 := hrep.nwords_le
  have hmi : c.nitems <
      (if c.nitems ≥ c.maxitems then c.maxitems + GROWDCHAIN else c.maxitems) := by
    unfold GROWDCHAIN; split <;> omega
  have hmw : words.nwords <
      (if words.nwords ≥ words.maxwords then words.maxwords + GROWDWORDS
        else words.maxwords) := by
    unfold GROWDWORDS; split <;> omega
  intro d1 hd1
  unfold addentry at hd1
  rw [he] at hd1
  simp only [if_neg (Nat.not_le.2 hmi), if_neg (Nat.not_le.2 hmw)] at hd1
  by_cases hfit : words.dwordbufpos + w.length + 1 >
      (if words.dwordbufpos + w.length + 2 ≥ words.dwordbufmax then
        words.dwordbufmax + GROWDWORDBUF else words.dwordbufmax)
  · rw [if_pos hfit] at hd1
    cases hd1
  · rw [if_neg hfit] at hd1
    cases hd1
    exact ⟨_, rfl, rfl, rfl, Nat.le_of_not_lt hfit⟩

theorem addtodict_capacity {d d1 : dictionary} {L : List (List Nat)} (hr : DictRep d L)
    {w : List Nat} (hw : isCString w) (hnew : w ∉ L) (h : addtodict d w = some d1) :
    (wordsof d1).dwordbufpos = ((wordsof d).dwordbufpos + (w.length + 1) + 1)
      - ((wordsof d).dwordbufpos + (w.length + 1) + 1) % 2 ∧
    (wordsof d1).dwordbufmax =
      (if (wordsof d).dwordbufpos + w.length + 2 ≥ (wordsof d).dwordbufmax then
        (wordsof d).dwordbufmax + GROWDWORDBUF else (wordsof d).dwordbufmax) ∧
    (wordsof d).dwordbufpos + w.length + 1 ≤ (wordsof d1).dwordbufmax := by
  cases hch : d.hchain (dhashcode w) with
  | none =>
    rw [addtodict_eq_of_none hch] at h
    obtain ⟨words1, e1, e2, e3, e4⟩ :=
      addentry_capacity ((alloc_rep hr w).2 hch).1 hw hnew (store_same _ _ _) d1 h
    rw [wordsof_of_some e1]
    exact ⟨e2, e3, e4⟩
  | some c =>
    obtain ⟨words, hws, hrep⟩ := (alloc_rep hr w).1 c hch
    rw [addtodict_eq_of_some hch] at h
    rw [wordsof_of_some hws] at h ⊢
    obtain ⟨words1, e1, e2, e3, e4⟩ := addentry_capacity hrep hw hnew hch d1 h
    rw [wordsof_of_some e1]
    exact ⟨e2, e3, e4⟩

/-- One `addtodict` of a word of at most 1024 bytes keeps the buffer position below the
buffer capacity. -/
theorem addtodict_pos_lt {d d1 : dictionary} {L : List (List Nat)} (hr : DictRep d L)
    {w : List Nat} (hw : isCString w) (hlen : w.length ≤ 1024)
    (hpos : (wordsof d).dwordbufpos < (wordsof d).dwordbufmax)
    (h : addtodict d w = some d1) :
    (wordsof d1).dwordbufpos < (wordsof d1).dwordbufmax := by
  by_cases hmem : w ∈ L
  · rw [addtodict_of_mem hr hw hmem] at h
    cases h
    exact hpos
  · obtain ⟨e1, e2, _⟩ := addtodict_capacity hr hw hmem h
    rw [e1, e2]
    unfold GROWDWORDBUF
    split <;> omega

theorem addwords_pos_lt (ws : List (List Nat)) :
    ∀ {d d1 : dictionary} {L : List (List Nat)}, DictRep d L →
    (∀ x ∈ ws, isCString x ∧ x.length ≤ 1024) →
    (wordsof d).dwordbufpos < (wordsof d).dwordbufmax →
    addwords d ws = some d1 →
    (wordsof d1).dwordbufpos < (wordsof d1).dwordbufmax := by
  induction ws with
  | nil =>
    intro d d1 L _ _ hpos h
    simp only [addwords, Option.some.injEq] at h
    subst h
    exact hpos
  | cons w ws ih =>
    intro d d1 L hr hws hpos h
    have hw := hws w (List.mem_cons_self _ _)
    simp only [addwords] at h
    cases h2 : addtodict d w with
    | none => rw [h2] at h; cases h
    | some d2 =>
      rw [h2] at h
      exact ih (rep_addtodict hr hw.1 h2) (fun x hx => hws x (List.mem_cons_of_mem _ hx))
        (addtodict_pos_lt hr hw.1 hw.2 hpos h2) h

theorem addwords_isSome (ws : List (List Nat)) :
    ∀ {d : dictionary} {L : List (List Nat)}, DictRep d L →
    (∀ x ∈ ws, isCString x ∧ x.length ≤ 1024) → (addwords d ws).isSome = true := by
  induction ws with
  | nil => intro d L _ _; rfl
  | cons w ws ih =>
    intro d L hr hws
    have hw := hws w (List.mem_cons_self _ _)
    have hsome : (addtodict d w).isSome = true := by
      by_cases hmem : w ∈ L
      · rw [addtodict_of_mem hr hw.1 hmem]; rfl
      · exact (addtodict_of_not_mem hr hw.1 hmem).1 (by unfold GROWDWORDBUF; omega)
    obtain ⟨d2, h2⟩ := Option.isSome_iff_exists.1 hsome
    simp only [addwords, h2]
    exact ih (rep_addtodict hr hw.1 h2) (fun x hx => hws x (List.mem_cons_of_mem _ hx))

/-- C21. Capacity invariant: in every dictionary reached from the empty dictionary by
`addtodict` calls with words of at most 1024 bytes, `nwords ≤ maxwords`, every chain has
`nitems ≤ maxitems`, `dwordbufpos` is even and `dwordbufpos < dwordbufmax`; every such
sequence of calls succeeds; and at the insert of a new word of at most 1024 bytes the one
growth step of 65536 bytes suffices: the insert succeeds, the capacity grows by at most
`GROWDWORDBUF`, and `dwordbufpos + strlen(w) + 1 ≤ dwordbufmax` holds for the capacity
with which the word and its terminator are copied. -/
theorem capacity_invariant (ws : List (List Nat)) (d : dictionary)
    (hws : ∀ x ∈ ws, isCString x ∧ x.length ≤ 1024)
    (hd : addwords emptydict ws = some d) :
    (∀ words, d.words = some words →
      words.nwords ≤ words.maxwords ∧ words.dwordbufpos % 2 = 0 ∧
      words.dwordbufpos < words.dwordbufmax) ∧
    (∀ h c, d.hchain h = some c → c.nitems ≤ c.maxitems) ∧
    (addwords emptydict ws).isSome = true ∧
    (∀ w, isCString w → w.length ≤ 1024 → w ∉ ws →
      ∃ d1, addtodict d w = some d1 ∧
        (wordsof d).dwordbufpos + w.length + 1 ≤ (wordsof d1).dwordbufmax ∧
        (wordsof d1).dwordbufmax ≤ (wordsof d).dwordbufmax + GROWDWORDBUF ∧
        (wordsof d1).dwordbufpos < (wordsof d1).dwordbufmax) := by
  have hcs : ∀ x ∈ ws, isCString x := fun x hx => (hws x hx).1
  have hr := rep_of_addwords hcs hd
  have hpos := addwords_pos_lt ws rep_emptydict hws (by decide) hd
  refine ⟨?_, ?_, addwords_isSome ws rep_emptydict hws, ?_⟩
  · intro words hwords
    rw [wordsof_of_some hwords] at hpos
    unfold DictRep at hr
    rw [hwords] at hr
    exact ⟨hr.nwords_le, hr.pos_even, hpos⟩
  · intro h c hc
    unfold DictRep at hr
    cases hwords : d.words with
    | none =>
      rw [hwords] at hr
      rw [hr.2 h] at hc
      cases hc
    | some words =>
      rw [hwords] at hr
      exact hr.chain_le h c hc
  · intro w hw hlen hnew
    have hnew1 : w ∉ firstOccurrences ws := fun h => hnew ((mem_firstOccurrences ws w).1 h)
    obtain ⟨d1, h1⟩ := Option.isSome_iff_exists.1
      ((addtodict_of_not_mem hr hw hnew1).1 (by unfold GROWDWORDBUF; omega))
    obtain ⟨_, e2, e3⟩ := addtodict_capacity hr hw hnew1 h1
    refine ⟨d1, h1, e3, ?_, addtodict_pos_lt hr hw hlen hpos h1⟩
    rw [e2]
    split <;> omega

/-- The dictionary that holds "dog": one word, position 4 of 196608 bytes; the insert of
"gar" fits without growth. -/
theorem capacity_invariant_witness :
    addwords emptydict [[100, 111, 103]] = some dogdict ∧
    (wordsof dogdict).dwordbufpos = 4 ∧ (wordsof dogdict).dwordbufmax = 196608 ∧
    ∀ words, dogdict.words = some words →
      words.nwords ≤ words.maxwords ∧ words.dwordbufpos % 2 = 0 ∧
      words.dwordbufpos < words.dwordbufmax :=
  ⟨rfl, by decide, by decide,
    (capacity_invariant [[100, 111, 103]] dogdict (by decide) rfl).1⟩

end Gibbergen
